import Mathlib

/-!
Formal model of the document-selection + chunking + metadata-enrichment core of
the show-me-ai ingestion pipeline (src/ingestion/db_utils.py,
src/ingestion/embeddings/chunking.py, src/ingestion/embeddings/embeddings_pipeline.py).

Modelling conventions:
* Python strings are Lean `String`s manipulated as `List Char`; the Python
  character classes (`\s`, `\d`, `\w`, `[A-Z]`) are modelled over ASCII, as used
  by the pipeline's inputs.
* `tiktoken`'s `count_tokens` is an external tokenizer (spec §6); it is a
  parameter `tok : String → Nat` of every definition that calls it.
* The float comparison `section_tokens > target_tokens * 1.2` is modelled
  exactly over rationals as `5 * section_tokens > 6 * target_tokens`.
* Python regex substitution/search is modelled by explicit left-to-right
  scanners with the same leftmost, greedy, non-overlapping semantics.
-/

/-- Python's `str` whitespace class `\s` over ASCII: space, tab, newline,
carriage return, vertical tab, form feed. -/
def pyIsSpace (c : Char) : Bool :=
  c = ' ' || c = '\t' || c = '\n' || c = '\r' || c = '\x0b' || c = '\x0c'

/-- Python's `\w` word class over ASCII: letters, digits, underscore. -/
def pyIsWord (c : Char) : Bool :=
  c.isAlpha || c.isDigit || c = '_'

/-- `[A-Z\d]`: uppercase ASCII letter or digit. -/
def isUpperDigit (c : Char) : Bool :=
  c.isUpper || c.isDigit

/-- `pat` matches at the head of `l` (literal match). -/
def leadsWith : List Char → List Char → Bool
  | [], _ => true
  | _ :: _, [] => false
  | p :: ps, c :: cs => p = c && leadsWith ps cs

/-- Python's substring operator `pat in l` on character lists. -/
def hasSub (pat : List Char) : List Char → Bool
  | [] => leadsWith pat []
  | c :: rest => leadsWith pat (c :: rest) || hasSub pat rest

/-- Python's `pat in s` on strings. -/
def strContains (s pat : String) : Bool := hasSub pat.toList s.toList

/-- Python's `str.lower()` over ASCII. -/
def lowerStr (s : String) : String := String.mk (s.toList.map Char.toLower)

/-- `s.lower().replace(' ', '_')`, the normalisation `get_embeddable_bill_documents`
applies to a document type label before the hierarchy scan. -/
def normTypeLabel (s : String) : String :=
  String.mk ((s.toList.map Char.toLower).map (fun c => if c = ' ' then '_' else c))

/-- A row of the `bill_documents` table, restricted to the fields the
selection logic reads. `id` stands for all remaining columns, so structural
equality on `DocRecord` models Python's dict equality used for deduplication. -/
structure DocRecord where
  id : String
  storage_path : Option String
  document_type : String
deriving DecidableEq

/-- The filter on line 460 of db_utils.py: `doc.get('storage_path') and
'.ORG' not in doc.get('storage_path', '')` (falsy for `None` and `""`). -/
def isEmbeddableDoc (d : DocRecord) : Bool :=
  match d.storage_path with
  | none => false
  | some p => !(p = "") && !(strContains p ".ORG")

/-- The fixed document-type hierarchy of `get_embeddable_bill_documents`,
most authoritative first. -/
def docHierarchy : List String :=
  ["truly agreed", "truly_agreed", "senate_comm_sub", "senate comm sub",
   "senate committee substitute", "perfected", "committee", "introduced"]

/-- The introduced-version search: first document whose lowered type label
contains "introduced". -/
def findIntroducedDoc (docs : List DocRecord) : Option DocRecord :=
  docs.find? (fun d => strContains (lowerStr d.document_type) "introduced")

/-- The most-recent-version search: scan `docHierarchy` most-authoritative
first and return the first document whose normalised type label contains the
priority term. -/
def findMostRecentDoc (docs : List DocRecord) : Option DocRecord :=
  docHierarchy.findSome? (fun p => docs.find? (fun d => strContains (normTypeLabel d.document_type) p))

/-- `Database.get_embeddable_bill_documents`, given the bill's document rows:
filter out fiscal notes, pick introduced + most recent (deduplicated), fall
back to the first remaining document. -/
def get_embeddable_bill_documents (docs : List DocRecord) : List DocRecord :=
  let legislative_docs := docs.filter isEmbeddableDoc
  if legislative_docs.isEmpty then []
  else
    let introduced := findIntroducedDoc legislative_docs
    let most_recent := findMostRecentDoc legislative_docs
    let r1 := match introduced with
      | some i => [i]
      | none => []
    let r2 := match most_recent with
      | some m => match introduced with
        | some i => if m = i then [] else [m]
        | none => [m]
      | none => []
    let result := r1 ++ r2
    if result.isEmpty then legislative_docs.take 1 else result

/-! ## Chunking (src/ingestion/embeddings/chunking.py)

The two regex alternatives of the section patterns, as deterministic
head matchers returning the matched length. Between the consecutive pieces
`\s+`/`[A-Z\d]+`, `\s+`/`1`, `\d{3}`/`\.` the character classes are disjoint,
so Python's greedy backtracking engine consumes exactly the maximal runs
modelled here. -/

/-- Length of a match of `Section\s+[A-Z\d]+\.` at the head of `l`. -/
def sectionHeadLen (l : List Char) : Option Nat :=
  match l with
  | c1 :: c2 :: c3 :: c4 :: c5 :: c6 :: c7 :: rest =>
    if c1 = 'S' && c2 = 'e' && c3 = 'c' && c4 = 't' && c5 = 'i' && c6 = 'o' && c7 = 'n' then
      let w := (rest.takeWhile pyIsSpace).length
      if w = 0 then none
      else
        let rest2 := rest.drop w
        let a := (rest2.takeWhile isUpperDigit).length
        if a = 0 then none
        else
          match rest2.drop a with
          | d :: _ => if d = '.' then some (7 + w + a + 1) else none
          | _ => none
    else none
  | _ => none

/-- Length of a match of `\d{3}\.\d{3}\.\s+1\.` at the head of `l`. -/
def statuteHeadLen (l : List Char) : Option Nat :=
  match l with
  | d1 :: d2 :: d3 :: p1 :: e1 :: e2 :: e3 :: p2 :: rest =>
    if d1.isDigit && d2.isDigit && d3.isDigit && p1 = '.'
        && e1.isDigit && e2.isDigit && e3.isDigit && p2 = '.' then
      let w := (rest.takeWhile pyIsSpace).length
      if w = 0 then none
      else
        match rest.drop w with
        | o :: p3 :: _ => if o = '1' && p3 = '.' then some (8 + w + 2) else none
        | _ => none
    else none
  | _ => none

/-- The classifier search of `chunk_document` (line 189):
`re.search(r'(?:Section\s+[A-Z\d]+\.|(?:\d{3}\.\d{3}\.\s+1\.))', text)` —
true iff either alternative matches at some position. -/
def hasSectionMarkerCls : List Char → Bool
  | [] => false
  | c :: rest =>
    (sectionHeadLen (c :: rest)).isSome || (statuteHeadLen (c :: rest)).isSome
      || hasSectionMarkerCls rest

/-- A match of the `chunk_by_sections` boundary pattern
`(?:Section\s+[A-Z\d]+\.|(?:^|\n)(?:\d{3}\.\d{3}\.\s+1\.))` (MULTILINE) at the
current position: `lineStart` is true at offset 0 and right after a `'\n'`.
The `\n` alternative consumes the newline, so the match start sits on it. -/
def matchLenAt (lineStart : Bool) (l : List Char) : Option Nat :=
  match sectionHeadLen l with
  | some n => some n
  | none =>
    match l with
    | [] => none
    | c :: rest =>
      if c = '\n' then (statuteHeadLen rest).map (· + 1)
      else if lineStart then statuteHeadLen (c :: rest) else none

/-- `re.finditer` of the boundary pattern finds at least one match: scan every
position left to right (skips after a found match never hide the first one). -/
def hasSecMatch (lineStart : Bool) : List Char → Bool
  | [] => false
  | c :: rest => (matchLenAt lineStart (c :: rest)).isSome || hasSecMatch (c = '\n') rest

/-- Cut the text at the start offset of every `finditer` match of the boundary
pattern (non-overlapping: after a match of length `n`, scanning resumes past
it, tracked by `skip`). Yields the pieces of lines 126–136: the text before the
first match (when non-empty), then each match start up to the next match start
or the end of the text. -/
def scanSections (acc : List Char) (skip : Nat) (lineStart : Bool) : List Char → List (List Char)
  | [] => [acc.reverse]
  | c :: rest =>
    match skip with
    | k + 1 => scanSections (c :: acc) k (c = '\n') rest
    | 0 =>
      match matchLenAt lineStart (c :: rest) with
      | some n =>
        (if acc.isEmpty then [] else [acc.reverse]) ++ scanSections [c] (n - 1) (c = '\n') rest
      | none => scanSections (c :: acc) 0 (c = '\n') rest

/-- The `sections` list of `chunk_by_sections` (lines 126–136). -/
def sectionsOf (text : String) : List String :=
  (scanSections [] 0 true text.toList).map String.mk

/-- Python's `not section.strip()`: the text is empty or all whitespace. -/
def isBlankStr (s : String) : Bool := s.toList.all pyIsSpace

/-- `" ".join(parts)`. -/
def joinSegs : List String → String
  | [] => ""
  | [s] => s
  | s :: rest => s ++ " " ++ joinSegs rest

/-- Sum of token counts of a list of segments. -/
def sumTok (tok : String → Nat) (l : List String) : Nat := (l.map tok).sum

/-- The packing loop of `chunk_by_sections` (lines 139–171), kept at the level
of segment lists (a chunk is the list of sections later joined by a space).
`curTok` is the running `current_tokens` variable. The float guard
`section_tokens > target_tokens * 1.2` is the exact `5 * st > 6 * target`. -/
def packLoop (tok : String → Nat) (target : Nat) (chunks : List (List String))
    (cur : List String) (curTok : Nat) : List String → List (List String)
  | [] => if cur.isEmpty then chunks else chunks ++ [cur]
  | s :: rest =>
    if isBlankStr s then packLoop tok target chunks cur curTok rest
    else
      let st := tok s
      if 5 * st > 6 * target then
        packLoop tok target ((if cur.isEmpty then chunks else chunks ++ [cur]) ++ [[s]]) [] 0 rest
      else if curTok + st > target && !cur.isEmpty then
        packLoop tok target (chunks ++ [cur]) [s] st rest
      else
        packLoop tok target chunks (cur ++ [s]) (curTok + st) rest

/-- `chunk_by_sections` at the segment-list level: each returned element is the
list of sections that form one chunk. -/
def chunkBySectionsSegs (tok : String → Nat) (target : Nat) (text : String) :
    List (List String) :=
  if hasSecMatch true text.toList then packLoop tok target [] [] 0 (sectionsOf text)
  else [[text]]

/-- `chunk_by_sections(text, target_tokens, overlap_tokens)` (overlap unused,
as in the source). -/
def chunk_by_sections (tok : String → Nat) (target : Nat) (text : String) : List String :=
  (chunkBySectionsSegs tok target text).map joinSegs

/-- The splitter `re.split(r'(?<=[.!?])\s+', text)` as a one-pass scanner:
a separator is a maximal whitespace run preceded by `.`, `!` or `?`; the run is
consumed; `prevEnd` records whether the previous character was sentence-ending
punctuation, `inSep` that a separator run is being consumed. -/
def splitSentGo (acc : List Char) (prevEnd : Bool) (inSep : Bool) :
    List Char → List (List Char)
  | [] => [acc.reverse]
  | c :: rest =>
    if inSep then
      if pyIsSpace c then splitSentGo acc prevEnd true rest
      else splitSentGo [c] (c = '.' || c = '!' || c = '?') false rest
    else if prevEnd && pyIsSpace c then
      acc.reverse :: splitSentGo [] false true rest
    else splitSentGo (c :: acc) (c = '.' || c = '!' || c = '?') false rest

/-- The `sentences` list of `chunk_by_sentences` (line 62). -/
def splitSentences (text : String) : List String :=
  (splitSentGo [] false false text.toList).map String.mk

/-- The backward overlap walk (lines 76–86) over the reversed just-emitted
chunk: collect sentences while the cumulative token count stays within the
overlap budget, stopping at the first that does not fit. -/
def seedRev (tok : String → Nat) (overlap : Nat) (cnt : Nat) : List String → List String
  | [] => []
  | s :: rest => if cnt + tok s ≤ overlap then s :: seedRev tok overlap (cnt + tok s) rest else []

/-- The overlap seed of a just-emitted chunk, in original order. -/
def overlapSeed (tok : String → Nat) (overlap : Nat) (c : List String) : List String :=
  (seedRev tok overlap 0 c.reverse).reverse

/-- The accumulation loop of `chunk_by_sentences` (lines 68–92) at the
segment-list level; `curTok` is the running `current_tokens`. On a flush the
new accumulator is the overlap seed of the emitted chunk plus the current
sentence. -/
def sentLoop (tok : String → Nat) (target overlap : Nat) (chunks : List (List String))
    (cur : List String) (curTok : Nat) : List String → List (List String)
  | [] => if cur.isEmpty then chunks else chunks ++ [cur]
  | s :: rest =>
    let st := tok s
    if curTok + st > target && !cur.isEmpty then
      let seed := overlapSeed tok overlap cur
      sentLoop tok target overlap (chunks ++ [cur]) (seed ++ [s]) (sumTok tok seed + st) rest
    else
      sentLoop tok target overlap chunks (cur ++ [s]) (curTok + st) rest

/-- `chunk_by_sentences` at the segment-list level. -/
def chunkBySentencesSegs (tok : String → Nat) (target overlap : Nat) (text : String) :
    List (List String) :=
  sentLoop tok target overlap [] [] 0 (splitSentences text)

/-- `chunk_by_sentences(text, target_tokens, overlap_tokens)`. -/
def chunk_by_sentences (tok : String → Nat) (target overlap : Nat) (text : String) :
    List String :=
  (chunkBySentencesSegs tok target overlap text).map joinSegs

/-- `chunk_document(text, target_tokens, overlap_tokens)` (lines 174–207):
classify by the unanchored marker search, then dispatch. -/
def chunk_document (tok : String → Nat) (target overlap : Nat) (text : String) :
    List String × String :=
  if hasSectionMarkerCls text.toList then
    (chunk_by_sections tok target text, "legislative_text")
  else if tok text ≤ target then ([text], "summary")
  else (chunk_by_sentences tok target overlap text, "summary")

/-! ## Theorems: document selection and classifier/boundary patterns -/

/-- C6: evaluation of the most-recent scan at the failing input. Contrary to
the claim (and the docstring hierarchy), for a bill whose remaining documents
are labelled "Senate Committee Substitute" and "Perfected", the code selects
the Perfected document: after `.lower().replace(' ', '_')` normalisation the
space-containing hierarchy variants cannot match and `senate_comm_sub` is not
a substring of `senate_committee_substitute`, so `perfected` matches first. -/
theorem scs_hierarchy_eval :
    get_embeddable_bill_documents
        [⟨"d1", some "p1.pdf", "Senate Committee Substitute"⟩,
         ⟨"d2", some "p2.pdf", "Perfected"⟩]
      = [⟨"d2", some "p2.pdf", "Perfected"⟩] := by decide

/-- C4 counterexample: a text whose only marker is a mid-line statute-number
heading is detected by the classifier (hence classified legislative_text) but
`chunk_by_sections` locates no boundary and returns the text whole. -/
theorem section_marker_patterns_differ :
    hasSectionMarkerCls "ab 338.056. 1. x".toList = true ∧
    hasSecMatch true "ab 338.056. 1. x".toList = false ∧
    chunk_by_sections String.length 800 "ab 338.056. 1. x" = ["ab 338.056. 1. x"] ∧
    (chunk_document String.length 800 100 "ab 338.056. 1. x").2 = "legislative_text" := by
  exact ⟨by decide, by decide, by decide, by decide⟩

theorem statuteHeadLen_isSome_cls (l : List Char) (h : (statuteHeadLen l).isSome = true) :
    hasSectionMarkerCls l = true := by
  cases l with
  | nil => simp [statuteHeadLen] at h
  | cons c rest =>
    rw [hasSectionMarkerCls]
    simp [h]

/-- C4 (amended): the boundary pattern of `chunk_by_sections` refines the
classifier's pattern — wherever the chunker finds a boundary match, the
classifier detects a statutory-section marker. The converse fails (see the
counterexample): the chunker anchors the statute-number alternative at a line
start. -/
theorem hasSecMatch_implies_cls (l : List Char) (ls : Bool) (h : hasSecMatch ls l = true) :
    hasSectionMarkerCls l = true := by
  induction l generalizing ls with
  | nil => simp [hasSecMatch] at h
  | cons c rest ih =>
    rw [hasSecMatch] at h
    rcases (Bool.or_eq_true _ _).mp h with h1 | h2
    · rw [matchLenAt] at h1
      cases hsec : sectionHeadLen (c :: rest) with
      | some n =>
        rw [hasSectionMarkerCls]
        simp [hsec]
      | none =>
        rw [hsec] at h1
        by_cases hc : c = '\n'
        · simp only [hc, if_pos rfl] at h1
          have hst : (statuteHeadLen rest).isSome = true := by
            cases hr : statuteHeadLen rest with
            | none => rw [hr] at h1; simp at h1
            | some k => simp
          have := statuteHeadLen_isSome_cls rest hst
          rw [hasSectionMarkerCls]
          simp [this]
        · simp only [if_neg hc] at h1
          cases ls with
          | false => simp at h1
          | true =>
            simp at h1
            rw [hasSectionMarkerCls]
            simp [h1]
    · have := ih _ h2
      rw [hasSectionMarkerCls]
      simp [this]

/-- C5: for every list of a bill's document records,
`get_embeddable_bill_documents` returns at most 2 records drawn from the
input, never a fiscal-note document (unresolved or `.ORG`-marked storage
path) nor a duplicate; it returns `[]` iff no input document passes the
fiscal-note filter, and falls back to the first remaining document when
neither the introduced nor a hierarchy match is found. -/
theorem get_embeddable_bill_documents_spec (docs : List DocRecord) :
    (get_embeddable_bill_documents docs).length ≤ 2 ∧
    (∀ d ∈ get_embeddable_bill_documents docs, d ∈ docs) ∧
    (∀ d ∈ get_embeddable_bill_documents docs, isEmbeddableDoc d = true) ∧
    (get_embeddable_bill_documents docs).Nodup ∧
    (get_embeddable_bill_documents docs = [] ↔ ∀ d ∈ docs, isEmbeddableDoc d = false) ∧
    (findIntroducedDoc (docs.filter isEmbeddableDoc) = none →
      findMostRecentDoc (docs.filter isEmbeddableDoc) = none →
      get_embeddable_bill_documents docs = (docs.filter isEmbeddableDoc).take 1) := by
  set L := docs.filter isEmbeddableDoc with hLdef
  have hmemL : ∀ d ∈ L, d ∈ docs ∧ isEmbeddableDoc d = true := by
    intro d hd
    exact ⟨(List.mem_filter.mp hd).1, (List.mem_filter.mp hd).2⟩
  by_cases hL : L.isEmpty
  · have hLnil : L = [] := List.isEmpty_iff.mp hL
    have hres : get_embeddable_bill_documents docs = [] := by
      simp [get_embeddable_bill_documents, ← hLdef, hL]
    refine ⟨by simp [hres], by simp [hres], by simp [hres], by simp [hres], ?_, ?_⟩
    · simp only [hres, true_iff]
      intro d hd
      by_contra hne
      have : d ∈ L := List.mem_filter.mpr ⟨hd, by simpa using hne⟩
      simp [hLnil] at this
    · intro _ _
      simp [hres, hLnil]
  · have hLne : L ≠ [] := by
      intro h
      rw [h] at hL
      simp at hL
    obtain ⟨x, hx⟩ : ∃ x, x ∈ L := by
      rcases L with _ | ⟨y, t⟩
      · exact absurd rfl hLne
      · exact ⟨y, List.mem_cons_self y t⟩
    have hRHSfalse : ¬ (∀ d ∈ docs, isEmbeddableDoc d = false) := by
      intro hall
      have h1 := (hmemL x hx).1
      have h2 := (hmemL x hx).2
      rw [hall x h1] at h2
      exact Bool.false_ne_true h2
    rcases hI : findIntroducedDoc L with _ | i <;> rcases hM : findMostRecentDoc L with _ | m
    · -- neither found: fallback to first remaining doc
      have hres : get_embeddable_bill_documents docs = L.take 1 := by
        simp [get_embeddable_bill_documents, ← hLdef, hL, hI, hM]
      rcases L with _ | ⟨y, t⟩
      · exact absurd rfl hLne
      · have hyL : y ∈ y :: t := List.mem_cons_self y t
        refine ⟨by simp [hres], ?_, ?_, by simp [hres], ?_, ?_⟩
        · intro d hd
          rw [hres] at hd
          simp only [List.take] at hd
          rcases List.mem_singleton.mp (by simpa using hd) with rfl
          exact (hmemL d hyL).1
        · intro d hd
          rw [hres] at hd
          rcases List.mem_singleton.mp (by simpa using hd) with rfl
          exact (hmemL d hyL).2
        · rw [hres]
          simp only [List.take]
          constructor
          · intro h
            simp at h
          · intro h
            exact absurd h hRHSfalse
        · intro _ _
          exact hres
    · -- most recent only
      have hmL : m ∈ L := by
        obtain ⟨p, _, hp⟩ := List.exists_of_findSome?_eq_some hM
        exact List.mem_of_find?_eq_some hp
      have hres : get_embeddable_bill_documents docs = [m] := by
        simp [get_embeddable_bill_documents, ← hLdef, hL, hI, hM]
      refine ⟨by simp [hres], ?_, ?_, by simp [hres], ?_, ?_⟩
      · intro d hd
        rw [hres] at hd
        rcases List.mem_singleton.mp hd with rfl
        exact (hmemL d hmL).1
      · intro d hd
        rw [hres] at hd
        rcases List.mem_singleton.mp hd with rfl
        exact (hmemL d hmL).2
      · rw [hres]
        constructor
        · intro h
          simp at h
        · intro h
          exact absurd h hRHSfalse
      · intro _ hM2
        simp at hM2
    · -- introduced only
      have hiL : i ∈ L := List.mem_of_find?_eq_some hI
      have hres : get_embeddable_bill_documents docs = [i] := by
        simp [get_embeddable_bill_documents, ← hLdef, hL, hI, hM]
      refine ⟨by simp [hres], ?_, ?_, by simp [hres], ?_, ?_⟩
      · intro d hd
        rw [hres] at hd
        rcases List.mem_singleton.mp hd with rfl
        exact (hmemL d hiL).1
      · intro d hd
        rw [hres] at hd
        rcases List.mem_singleton.mp hd with rfl
        exact (hmemL d hiL).2
      · rw [hres]
        constructor
        · intro h
          simp at h
        · intro h
          exact absurd h hRHSfalse
      · intro hI2 _
        simp at hI2
    · -- both found: deduplicate
      have hiL : i ∈ L := List.mem_of_find?_eq_some hI
      have hmL : m ∈ L := by
        obtain ⟨p, _, hp⟩ := List.exists_of_findSome?_eq_some hM
        exact List.mem_of_find?_eq_some hp
      by_cases him : m = i
      · have hres : get_embeddable_bill_documents docs = [i] := by
          simp [get_embeddable_bill_documents, ← hLdef, hL, hI, hM, him]
        refine ⟨by simp [hres], ?_, ?_, by simp [hres], ?_, ?_⟩
        · intro d hd
          rw [hres] at hd
          rcases List.mem_singleton.mp hd with rfl
          exact (hmemL d hiL).1
        · intro d hd
          rw [hres] at hd
          rcases List.mem_singleton.mp hd with rfl
          exact (hmemL d hiL).2
        · rw [hres]
          constructor
          · intro h
            simp at h
          · intro h
            exact absurd h hRHSfalse
        · intro hI2 _
          simp at hI2
      · have hres : get_embeddable_bill_documents docs = [i, m] := by
          simp [get_embeddable_bill_documents, ← hLdef, hL, hI, hM, him]
        refine ⟨by simp [hres], ?_, ?_, ?_, ?_, ?_⟩
        · intro d hd
          rw [hres] at hd
          rcases List.mem_cons.mp hd with rfl | hd
          · exact (hmemL d hiL).1
          · rcases List.mem_singleton.mp hd with rfl
            exact (hmemL d hmL).1
        · intro d hd
          rw [hres] at hd
          rcases List.mem_cons.mp hd with rfl | hd
          · exact (hmemL d hiL).2
          · rcases List.mem_singleton.mp hd with rfl
            exact (hmemL d hmL).2
        · rw [hres]
          simp [him]
          intro h
          exact him h.symm
        · rw [hres]
          constructor
          · intro h
            simp at h
          · intro h
            exact absurd h hRHSfalse
        · intro hI2 _
          simp at hI2

theorem tok_joinSegs_le (tok : String → Nat)
    (hsub : ∀ a b : String, tok (a ++ " " ++ b) ≤ tok a + tok b) :
    ∀ c : List String, c ≠ [] → tok (joinSegs c) ≤ sumTok tok c := by
  intro c
  induction c with
  | nil => intro h; exact absurd rfl h
  | cons s t ih =>
    intro _
    cases t with
    | nil => simp [joinSegs, sumTok]
    | cons b t' =>
      have h1 : joinSegs (s :: b :: t') = s ++ " " ++ joinSegs (b :: t') := rfl
      rw [h1]
      calc tok (s ++ " " ++ joinSegs (b :: t')) ≤ tok s + tok (joinSegs (b :: t')) := hsub _ _
        _ ≤ tok s + sumTok tok (b :: t') := Nat.add_le_add_left (ih (by simp)) _
        _ = sumTok tok (s :: b :: t') := by simp [sumTok]

theorem packLoop_invariant (tok : String → Nat) (target : Nat) :
    ∀ (rest : List String) (chunks : List (List String)) (cur : List String) (curTok : Nat),
    curTok = sumTok tok cur → 5 * curTok ≤ 6 * target →
    (∀ c ∈ chunks, c ≠ [] ∧ (5 * sumTok tok c ≤ 6 * target ∨ ∃ s, c = [s] ∧ 5 * tok s > 6 * target)) →
    ∀ c ∈ packLoop tok target chunks cur curTok rest,
      c ≠ [] ∧ (5 * sumTok tok c ≤ 6 * target ∨ ∃ s, c = [s] ∧ 5 * tok s > 6 * target) := by
  intro rest
  induction rest with
  | nil =>
    intro chunks cur curTok hct hbd hch c hc
    rw [packLoop] at hc
    by_cases hcur : cur.isEmpty
    · rw [if_pos hcur] at hc
      exact hch c hc
    · rw [if_neg hcur] at hc
      rcases List.mem_append.mp hc with h | h
      · exact hch c h
      · rcases List.mem_singleton.mp h with rfl
        refine ⟨by simpa using hcur, Or.inl ?_⟩
        rw [← hct]
        exact hbd
  | cons s rest ih =>
    intro chunks cur curTok hct hbd hch c hc
    rw [packLoop] at hc
    by_cases hblank : isBlankStr s
    · rw [if_pos hblank] at hc
      exact ih chunks cur curTok hct hbd hch c hc
    · rw [if_neg hblank] at hc
      by_cases hbig : 5 * tok s > 6 * target
      · rw [if_pos hbig] at hc
        refine ih _ [] 0 (by simp [sumTok]) (by simp) ?_ c hc
        intro c' hc'
        rcases List.mem_append.mp hc' with h | h
        · by_cases hcur : cur.isEmpty
          · rw [if_pos hcur] at h
            exact hch c' h
          · rw [if_neg hcur] at h
            rcases List.mem_append.mp h with h' | h'
            · exact hch c' h'
            · rcases List.mem_singleton.mp h' with rfl
              exact ⟨by simpa using hcur, Or.inl (by rw [← hct]; exact hbd)⟩
        · rcases List.mem_singleton.mp h with rfl
          exact ⟨by simp, Or.inr ⟨s, rfl, hbig⟩⟩
      · rw [if_neg hbig] at hc
        by_cases hcur : cur.isEmpty
        · have hcond : (decide (curTok + tok s > target) && !cur.isEmpty) ≠ true := by
            simp [hcur]
          rw [if_neg hcond] at hc
          have hcur' : cur = [] := by simpa using hcur
          subst hcur'
          simp [sumTok] at hct
          refine ih chunks [s] (curTok + tok s) (by simp [sumTok, hct]) (by omega) hch c hc
        · by_cases hgt : curTok + tok s > target
          · have hcond : (decide (curTok + tok s > target) && !cur.isEmpty) = true := by
              simp [hgt, hcur]
            rw [if_pos hcond] at hc
            refine ih _ [s] (tok s) (by simp [sumTok]) (by omega) ?_ c hc
            intro c' hc'
            rcases List.mem_append.mp hc' with h | h
            · exact hch c' h
            · rcases List.mem_singleton.mp h with rfl
              have hcurne : c' ≠ [] := by simpa using hcur
              exact ⟨hcurne, Or.inl (by rw [← hct]; exact hbd)⟩
          · have hcond : (decide (curTok + tok s > target) && !cur.isEmpty) ≠ true := by
              simp [hgt]
            rw [if_neg hcond] at hc
            have hle : curTok + tok s ≤ target := Nat.le_of_not_lt hgt
            refine ih chunks (cur ++ [s]) (curTok + tok s) (by simp [sumTok, hct]) (by omega) hch c hc

/-- C1: for every text and target, every chunk produced by
`chunk_by_sections` (viewed as its list of section segments, joined by single
spaces into the returned string) has token count at most `target * 1.2`
(stated exactly as `5 * tok ≤ 6 * target`), except when the chunk is exactly
one segment whose own token count exceeds that bound. The hypothesis `hsub`
states the tokenizer does not count the space-join of two texts as more than
the sum of their counts, which ties the chunk's count to the packing loop's
running total. -/
theorem chunk_by_sections_token_bound (tok : String → Nat) (target : Nat) (text : String)
    (hsub : ∀ a b : String, tok (a ++ " " ++ b) ≤ tok a + tok b)
    (c : List String) (hc : c ∈ chunkBySectionsSegs tok target text) :
    5 * tok (joinSegs c) ≤ 6 * target ∨ ∃ s, c = [s] ∧ 5 * tok s > 6 * target := by
  unfold chunkBySectionsSegs at hc
  by_cases hm : hasSecMatch true text.toList
  · rw [if_pos hm] at hc
    have h := packLoop_invariant tok target (sectionsOf text) [] [] 0 (by simp [sumTok])
      (by simp) (by simp) c hc
    rcases h.2 with hb | hex
    · exact Or.inl (le_trans (Nat.mul_le_mul_left 5 (tok_joinSegs_le tok hsub c h.1)) hb)
    · exact Or.inr hex
  · rw [if_neg hm] at hc
    rcases List.mem_singleton.mp hc with rfl
    rcases Nat.lt_or_ge (6 * target) (5 * tok text) with hgt | hle
    · exact Or.inr ⟨text, rfl, hgt⟩
    · have hj : joinSegs [text] = text := rfl
      exact Or.inl (by rw [hj]; exact hle)

theorem chunk_by_sections_token_bound_witness :
    5 * (fun _ : String => 0) (joinSegs ["Section A. x"]) ≤ 6 * 800 ∨
      ∃ s, ["Section A. x"] = [s] ∧ 5 * (fun _ : String => 0) s > 6 * 800 :=
  chunk_by_sections_token_bound (fun _ => 0) 800 "Section A. x"
    (fun _ _ => Nat.le_refl 0) ["Section A. x"] (by decide)

theorem chunker_classifier_witness :
    hasSectionMarkerCls "Section A. hi".toList = true :=
  hasSecMatch_implies_cls "Section A. hi".toList true (by decide)

theorem seedRev_pref (tok : String → Nat) (ov : Nat) :
    ∀ (l : List String) (cnt : Nat), seedRev tok ov cnt l <+: l := by
  intro l
  induction l with
  | nil => intro cnt; simp [seedRev]
  | cons s rest ih =>
    intro cnt
    rw [seedRev]
    by_cases h : cnt + tok s ≤ ov
    · rw [if_pos h]
      exact List.cons_prefix_cons.mpr ⟨rfl, ih _⟩
    · rw [if_neg h]
      exact List.nil_prefix

theorem overlapSeed_suffix (tok : String → Nat) (ov : Nat) (c : List String) :
    overlapSeed tok ov c <:+ c := by
  unfold overlapSeed
  have h := seedRev_pref tok ov c.reverse 0
  have h2 := List.reverse_suffix.mpr h
  rwa [List.reverse_reverse] at h2

theorem sentLoop_chain (tok : String → Nat) (target ov : Nat) :
    ∀ (rest : List String) (chunks : List (List String)) (cur : List String) (curTok : Nat),
    List.Chain' (fun a b => overlapSeed tok ov a <+: b) chunks →
    (∀ last ∈ chunks.getLast?, overlapSeed tok ov last <+: cur) →
    List.Chain' (fun a b => overlapSeed tok ov a <+: b)
      (sentLoop tok target ov chunks cur curTok rest) := by
  intro rest
  induction rest with
  | nil =>
    intro chunks cur curTok hc hlast
    rw [sentLoop]
    by_cases hcur : cur.isEmpty
    · rw [if_pos hcur]; exact hc
    · rw [if_neg hcur]
      refine List.Chain'.append hc (List.chain'_singleton _) ?_
      intro x hx y hy
      simp only [List.head?] at hy
      rcases Option.some_inj.mp hy with rfl
      exact hlast x hx
  | cons s rest ih =>
    intro chunks cur curTok hc hlast
    rw [sentLoop]
    by_cases hcond : (decide (curTok + tok s > target) && !cur.isEmpty) = true
    · rw [if_pos hcond]
      refine ih _ _ _ ?_ ?_
      · refine List.Chain'.append hc (List.chain'_singleton _) ?_
        intro x hx y hy
        simp only [List.head?] at hy
        rcases Option.some_inj.mp hy with rfl
        exact hlast x hx
      · intro last hl
        rw [List.getLast?_concat] at hl
        rcases Option.some_inj.mp hl with rfl
        exact List.prefix_append _ _
    · rw [if_neg hcond]
      refine ih _ _ _ hc ?_
      intro last hl
      exact (hlast last hl).trans (List.prefix_append cur [s])

/-- C2: for `chunk_by_sentences` with `target_tokens = 800` and
`overlap_tokens = 100`, whenever chunk `i` has a successor, has at least 2
sentences, and more than one of its trailing sentences fits within the
100-token overlap budget, the tail of chunk `i` and the head of chunk `i+1`
share at least one sentence (the overlap seed, in original order). -/
theorem chunk_by_sentences_overlap (tok : String → Nat) (text : String) (i : Nat)
    (h1 : i + 1 < (chunkBySentencesSegs tok 800 100 text).length)
    (h2 : 2 ≤ ((chunkBySentencesSegs tok 800 100 text).getD i []).length)
    (h3 : 2 ≤ (overlapSeed tok 100 ((chunkBySentencesSegs tok 800 100 text).getD i [])).length) :
    ∃ l : List String, l ≠ [] ∧ l <:+ (chunkBySentencesSegs tok 800 100 text).getD i [] ∧
      l <+: (chunkBySentencesSegs tok 800 100 text).getD (i + 1) [] := by
  set cs := chunkBySentencesSegs tok 800 100 text with hcs
  have hch : List.Chain' (fun a b => overlapSeed tok 100 a <+: b) cs := by
    rw [hcs]
    unfold chunkBySentencesSegs
    exact sentLoop_chain tok 800 100 _ [] [] 0 (by simp) (by simp)
  have hi : i < cs.length - 1 := by omega
  have hrel := List.chain'_iff_get.mp hch i hi
  have hlen : i < cs.length := by omega
  have hgi : cs.getD i [] = cs.get ⟨i, hlen⟩ := by
    rw [List.getD_eq_getElem cs [] hlen]
    rfl
  have hgi1 : cs.getD (i + 1) [] = cs.get ⟨i + 1, h1⟩ := by
    rw [List.getD_eq_getElem cs [] h1]
    rfl
  refine ⟨overlapSeed tok 100 (cs.getD i []), ?_, ?_, ?_⟩
  · intro hnil
    rw [hnil] at h3
    simp at h3
  · exact overlapSeed_suffix tok 100 _
  · rw [hgi, hgi1]
    exact hrel

theorem chunk_by_sentences_overlap_witness :
    ∃ l : List String, l ≠ [] ∧
      l <:+ (chunkBySentencesSegs (fun s => 25 * s.length) 800 100
        "a. b. cccccccccccccccccccccccccccc.").getD 0 [] ∧
      l <+: (chunkBySentencesSegs (fun s => 25 * s.length) 800 100
        "a. b. cccccccccccccccccccccccccccc.").getD (0 + 1) [] :=
  chunk_by_sentences_overlap (fun s => 25 * s.length)
    "a. b. cccccccccccccccccccccccccccc." 0 (by decide) (by decide) (by decide)

theorem splitSentGo_ne_nil : ∀ (l : List Char) (acc : List Char) (pe insep : Bool),
    splitSentGo acc pe insep l ≠ [] := by
  intro l
  induction l with
  | nil => intro acc pe insep; simp [splitSentGo]
  | cons c rest ih =>
    intro acc pe insep
    rw [splitSentGo]
    by_cases h1 : insep = true
    · rw [if_pos h1]
      by_cases h2 : pyIsSpace c
      · rw [if_pos h2]; exact ih _ _ _
      · rw [if_neg h2]; exact ih _ _ _
    · rw [if_neg h1]
      by_cases h3 : pe && pyIsSpace c
      · rw [if_pos h3]; simp
      · rw [if_neg h3]; exact ih _ _ _

theorem splitSentences_ne_nil (text : String) : splitSentences text ≠ [] := by
  unfold splitSentences
  intro h
  exact splitSentGo_ne_nil text.toList [] false false (List.map_eq_nil.mp h)

theorem sentLoop_ne_nil (tok : String → Nat) (target ov : Nat) :
    ∀ (rest : List String) (chunks : List (List String)) (cur : List String) (curTok : Nat),
    cur ≠ [] → sentLoop tok target ov chunks cur curTok rest ≠ [] := by
  intro rest
  induction rest with
  | nil =>
    intro chunks cur curTok hcur
    rw [sentLoop]
    rw [if_neg (by simpa using hcur)]
    simp
  | cons s rest ih =>
    intro chunks cur curTok hcur
    rw [sentLoop]
    by_cases hcond : (decide (curTok + tok s > target) && !cur.isEmpty) = true
    · rw [if_pos hcond]
      exact ih _ _ _ (by simp)
    · rw [if_neg hcond]
      exact ih _ _ _ (by simp)

theorem chunkBySentencesSegs_ne_nil (tok : String → Nat) (target ov : Nat) (text : String) :
    chunkBySentencesSegs tok target ov text ≠ [] := by
  unfold chunkBySentencesSegs
  rcases hs : splitSentences text with _ | ⟨s, rest⟩
  · exact absurd hs (splitSentences_ne_nil text)
  · rw [sentLoop]
    rw [if_neg (by simp)]
    exact sentLoop_ne_nil tok target ov rest [] ([] ++ [s]) (0 + tok s) (by simp)

theorem scanSections_join : ∀ (l : List Char) (acc : List Char) (skip : Nat) (ls : Bool),
    (scanSections acc skip ls l).flatten = acc.reverse ++ l := by
  intro l
  induction l with
  | nil => intro acc skip ls; simp [scanSections]
  | cons c rest ih =>
    intro acc skip ls
    cases skip with
    | succ k =>
      have heq : scanSections acc (k + 1) ls (c :: rest) =
          scanSections (c :: acc) k (c = '\n') rest := rfl
      rw [heq, ih]
      simp
    | zero =>
      cases hm : matchLenAt ls (c :: rest) with
      | some n =>
        have heq : scanSections acc 0 ls (c :: rest) =
            (if acc.isEmpty then [] else [acc.reverse]) ++ scanSections [c] (n - 1) (c = '\n') rest := by
          conv_lhs => rw [scanSections.eq_def]
          simp only [hm]
        rw [heq]
        by_cases hacc : acc.isEmpty
        · have hae : acc = [] := by simpa using hacc
          subst hae
          simp [ih]
        · rw [if_neg hacc]
          simp [ih]
      | none =>
        have heq : scanSections acc 0 ls (c :: rest) =
            scanSections (c :: acc) 0 (c = '\n') rest := by
          conv_lhs => rw [scanSections.eq_def]
          simp only [hm]
        rw [heq, ih]
        simp

theorem digit_not_ws (c : Char) (h : c.isDigit = true) : pyIsSpace c = false := by
  by_contra hb
  have hws : pyIsSpace c = true := by simpa using hb
  simp only [pyIsSpace, Bool.or_eq_true, decide_eq_true_eq] at hws
  rcases hws with (((((rfl | rfl) | rfl) | rfl) | rfl) | rfl) <;> exact absurd h (by decide)

theorem sectionHeadLen_nonws (l : List Char) (n : Nat) (h : sectionHeadLen l = some n) :
    ∃ c ∈ l, pyIsSpace c = false := by
  rcases l with _ | ⟨c1, _ | ⟨c2, _ | ⟨c3, _ | ⟨c4, _ | ⟨c5, _ | ⟨c6, _ | ⟨c7, rest⟩⟩⟩⟩⟩⟩⟩ <;>
      simp only [sectionHeadLen] at h <;>
    try exact Option.noConfusion h
  by_cases h1 : c1 = 'S'
  · exact ⟨c1, by simp, by rw [h1]; decide⟩
  · rw [if_neg (by simp [h1])] at h
    exact absurd h (by simp)

theorem statuteHeadLen_nonws (l : List Char) (n : Nat) (h : statuteHeadLen l = some n) :
    ∃ c ∈ l, pyIsSpace c = false := by
  rcases l with _ | ⟨d1, _ | ⟨d2, _ | ⟨d3, _ | ⟨p1, _ | ⟨e1, _ | ⟨e2, _ | ⟨e3, _ | ⟨p2, rest⟩⟩⟩⟩⟩⟩⟩⟩ <;>
      simp only [statuteHeadLen] at h <;>
    try exact Option.noConfusion h
  by_cases h1 : d1.isDigit
  · exact ⟨d1, by simp, digit_not_ws d1 h1⟩
  · rw [if_neg (by simp [h1])] at h
    exact absurd h (by simp)

theorem matchLenAt_nonws (ls : Bool) (l : List Char) (n : Nat) (h : matchLenAt ls l = some n) :
    ∃ c ∈ l, pyIsSpace c = false := by
  cases l with
  | nil => simp [matchLenAt, sectionHeadLen] at h
  | cons c rest =>
    cases hsec : sectionHeadLen (c :: rest) with
    | some k => exact sectionHeadLen_nonws _ k hsec
    | none =>
      simp only [matchLenAt.eq_def, hsec] at h
      by_cases hc : c = '\n'
      · rw [if_pos hc] at h
        cases hst : statuteHeadLen rest with
        | none => rw [hst] at h; exact Option.noConfusion h
        | some k =>
          obtain ⟨d, hd, hdw⟩ := statuteHeadLen_nonws rest k hst
          exact ⟨d, List.mem_cons_of_mem c hd, hdw⟩
      · rw [if_neg hc] at h
        cases ls with
        | false => simp at h
        | true =>
          rw [if_pos rfl] at h
          exact statuteHeadLen_nonws _ _ h

theorem hasSecMatch_nonws : ∀ (l : List Char) (ls : Bool), hasSecMatch ls l = true →
    ∃ c ∈ l, pyIsSpace c = false := by
  intro l
  induction l with
  | nil => intro ls h; simp [hasSecMatch] at h
  | cons c rest ih =>
    intro ls h
    rw [hasSecMatch] at h
    rcases (Bool.or_eq_true _ _).mp h with h1 | h2
    · cases hm : matchLenAt ls (c :: rest) with
      | none => rw [hm] at h1; exact absurd h1 (by simp)
      | some n => exact matchLenAt_nonws ls (c :: rest) n hm
    · obtain ⟨d, hd, hdw⟩ := ih _ h2
      exact ⟨d, List.mem_cons_of_mem c hd, hdw⟩

theorem packLoop_ne_nil (tok : String → Nat) (target : Nat) :
    ∀ (rest : List String) (chunks : List (List String)) (cur : List String) (curTok : Nat),
    (chunks ≠ [] ∨ cur ≠ [] ∨ ∃ s ∈ rest, isBlankStr s = false) →
    packLoop tok target chunks cur curTok rest ≠ [] := by
  intro rest
  induction rest with
  | nil =>
    intro chunks cur curTok hyp
    rw [packLoop]
    by_cases hcur : cur.isEmpty
    · rw [if_pos hcur]
      rcases hyp with h | h | h
      · exact h
      · exact absurd (by simpa using hcur) h
      · simp at h
    · rw [if_neg hcur]
      simp
  | cons s rest ih =>
    intro chunks cur curTok hyp
    rw [packLoop]
    by_cases hblank : isBlankStr s
    · rw [if_pos hblank]
      refine ih chunks cur curTok ?_
      rcases hyp with h | h | ⟨w, hw, hwb⟩
      · exact Or.inl h
      · exact Or.inr (Or.inl h)
      · rcases List.mem_cons.mp hw with rfl | hw'
        · exact absurd hblank (by simp [hwb])
        · exact Or.inr (Or.inr ⟨w, hw', hwb⟩)
    · rw [if_neg hblank]
      by_cases hbig : 5 * tok s > 6 * target
      · rw [if_pos hbig]
        refine ih _ [] 0 (Or.inl ?_)
        simp
      · rw [if_neg hbig]
        by_cases hcond : (decide (curTok + tok s > target) && !cur.isEmpty) = true
        · rw [if_pos hcond]
          exact ih _ [s] (tok s) (Or.inl (by simp))
        · rw [if_neg hcond]
          exact ih chunks (cur ++ [s]) (curTok + tok s) (Or.inr (Or.inl (by simp)))

theorem chunk_by_sections_ne_nil (tok : String → Nat) (target : Nat) (text : String) :
    chunk_by_sections tok target text ≠ [] := by
  unfold chunk_by_sections chunkBySectionsSegs
  by_cases hm : hasSecMatch true text.toList
  · rw [if_pos hm]
    intro hnil
    refine packLoop_ne_nil tok target (sectionsOf text) [] [] 0 (Or.inr (Or.inr ?_))
      (List.map_eq_nil_iff.mp hnil)
    obtain ⟨c, hcmem, hcw⟩ := hasSecMatch_nonws text.toList true hm
    have hjoin := scanSections_join text.toList [] 0 true
    simp only [List.reverse_nil, List.nil_append] at hjoin
    rw [← hjoin] at hcmem
    obtain ⟨piece, hpiece, hcpiece⟩ := List.mem_flatten.mp hcmem
    refine ⟨String.mk piece, List.mem_map_of_mem String.mk hpiece, ?_⟩
    refine Bool.eq_false_iff.mpr ?_
    intro hall
    unfold isBlankStr at hall
    rw [List.all_eq_true] at hall
    have hcpiece' : c ∈ (String.mk piece).toList := by simpa using hcpiece
    have := hall c hcpiece'
    rw [hcw] at this
    exact Bool.false_ne_true this
  · rw [if_neg hm]
    simp

/-- C10: for every input string, `chunk_document` returns at least one chunk
and a `doc_type` that is exactly "legislative_text" or "summary"; both
`chunk_by_sections` and `chunk_by_sentences` return at least one chunk for
every input. -/
theorem chunk_document_nonempty (tok : String → Nat) (target overlap : Nat) (text : String) :
    (chunk_document tok target overlap text).1 ≠ [] ∧
    ((chunk_document tok target overlap text).2 = "legislative_text" ∨
      (chunk_document tok target overlap text).2 = "summary") ∧
    chunk_by_sections tok target text ≠ [] ∧
    chunk_by_sentences tok target overlap text ≠ [] := by
  have hsec := chunk_by_sections_ne_nil tok target text
  have hsent : chunk_by_sentences tok target overlap text ≠ [] := by
    unfold chunk_by_sentences
    intro h
    exact chunkBySentencesSegs_ne_nil tok target overlap text (List.map_eq_nil_iff.mp h)
  refine ⟨?_, ?_, hsec, hsent⟩
  · unfold chunk_document
    by_cases hcls : hasSectionMarkerCls text.toList
    · rw [if_pos hcls]
      exact hsec
    · rw [if_neg hcls]
      by_cases hlen : tok text ≤ target
      · rw [if_pos hlen]
        simp
      · rw [if_neg hlen]
        exact hsent
  · unfold chunk_document
    by_cases hcls : hasSectionMarkerCls text.toList
    · rw [if_pos hcls]
      exact Or.inl rfl
    · rw [if_neg hcls]
      by_cases hlen : tok text ≤ target
      · rw [if_pos hlen]
        exact Or.inr rfl
      · rw [if_neg hlen]
        exact Or.inr rfl

/-- Concatenation of a list of strings (for reconstruction statements). -/
def joinAll : List String → String
  | [] => ""
  | s :: rest => s ++ joinAll rest

/-- Drop from every chunk after the first the overlap seed it inherited from
its predecessor (the intentionally duplicated material). -/
def dropSeedsGo (tok : String → Nat) (ov : Nat) (prev : List String) :
    List (List String) → List String
  | [] => []
  | c :: rest => c.drop (overlapSeed tok ov prev).length ++ dropSeedsGo tok ov c rest

/-- The segment sequence of a chunk list with all overlap seeds removed. -/
def dropOverlapSeeds (tok : String → Nat) (ov : Nat) : List (List String) → List String
  | [] => []
  | c :: rest => c ++ dropSeedsGo tok ov c rest

theorem joinAll_map_mk : ∀ L : List (List Char), joinAll (L.map String.mk) = String.mk L.flatten := by
  intro L
  induction L with
  | nil => rfl
  | cons a rest ih =>
    show String.mk a ++ joinAll (rest.map String.mk) = String.mk ((a :: rest).flatten)
    rw [ih]
    rfl

theorem sectionsOf_joinAll (text : String) : joinAll (sectionsOf text) = text := by
  unfold sectionsOf
  rw [joinAll_map_mk, scanSections_join]
  simp

theorem packLoop_flatten (tok : String → Nat) (target : Nat) :
    ∀ (rest : List String) (chunks : List (List String)) (cur : List String) (curTok : Nat),
    (packLoop tok target chunks cur curTok rest).flatten =
      chunks.flatten ++ cur ++ (rest.filter (fun s => !isBlankStr s)) := by
  intro rest
  induction rest with
  | nil =>
    intro chunks cur curTok
    rw [packLoop]
    by_cases hcur : cur.isEmpty
    · have : cur = [] := by simpa using hcur
      subst this
      rw [if_pos hcur]
      simp
    · rw [if_neg hcur]
      simp
  | cons s rest ih =>
    intro chunks cur curTok
    rw [packLoop]
    by_cases hblank : isBlankStr s
    · rw [if_pos hblank, ih]
      simp [hblank]
    · rw [if_neg hblank]
      by_cases hbig : 5 * tok s > 6 * target
      · rw [if_pos hbig, ih]
        by_cases hcur : cur.isEmpty
        · have : cur = [] := by simpa using hcur
          subst this
          rw [if_pos hcur]
          simp [hblank]
        · rw [if_neg hcur]
          simp [hblank]
      · rw [if_neg hbig]
        by_cases hcond : (decide (curTok + tok s > target) && !cur.isEmpty) = true
        · rw [if_pos hcond, ih]
          simp [hblank]
        · rw [if_neg hcond, ih]
          simp [hblank]

theorem dropSeedsGo_concat (tok : String → Nat) (ov : Nat) :
    ∀ (l : List (List String)) (prev c : List String),
    dropSeedsGo tok ov prev (l ++ [c]) =
      dropSeedsGo tok ov prev l ++ c.drop (overlapSeed tok ov (l.getLast?.getD prev)).length := by
  intro l
  induction l with
  | nil =>
    intro prev c
    simp [dropSeedsGo]
  | cons a l ih =>
    intro prev c
    show a.drop (overlapSeed tok ov prev).length ++ dropSeedsGo tok ov a (l ++ [c]) = _
    rw [ih]
    rw [List.getLast?_cons, Option.getD_some]
    simp [dropSeedsGo]

theorem dropOverlapSeeds_concat (tok : String → Nat) (ov : Nat) (a : List String)
    (l : List (List String)) (c : List String) :
    dropOverlapSeeds tok ov (a :: (l ++ [c])) =
      dropOverlapSeeds tok ov (a :: l) ++ c.drop (overlapSeed tok ov (l.getLast?.getD a)).length := by
  show a ++ dropSeedsGo tok ov a (l ++ [c]) = _
  rw [dropSeedsGo_concat]
  simp [dropOverlapSeeds]

theorem sentLoop_flatten (tok : String → Nat) (target ov : Nat) :
    ∀ (rest : List String) (chunks : List (List String)) (cur : List String) (curTok : Nat),
    cur ≠ [] →
    (∀ last ∈ chunks.getLast?, (overlapSeed tok ov last).length ≤ cur.length) →
    dropOverlapSeeds tok ov (sentLoop tok target ov chunks cur curTok rest) =
      dropOverlapSeeds tok ov (chunks ++ [cur]) ++ rest := by
  intro rest
  induction rest with
  | nil =>
    intro chunks cur curTok hcur _
    rw [sentLoop, if_neg (by simpa using hcur)]
    simp
  | cons s rest ih =>
    intro chunks cur curTok hcur hlen
    rw [sentLoop]
    by_cases hcond : (decide (curTok + tok s > target) && !cur.isEmpty) = true
    · rw [if_pos hcond]
      rw [ih _ _ _ (by simp) ?hl]
      case hl =>
        intro last hl
        rw [List.getLast?_concat] at hl
        rcases Option.some_inj.mp hl with rfl
        simp
      have hstep : dropOverlapSeeds tok ov ((chunks ++ [cur]) ++ [overlapSeed tok ov cur ++ [s]]) =
          dropOverlapSeeds tok ov (chunks ++ [cur]) ++ [s] := by
        rcases chunks with _ | ⟨a, l⟩
        · show dropOverlapSeeds tok ov (cur :: ([] ++ [overlapSeed tok ov cur ++ [s]])) = _
          rw [dropOverlapSeeds_concat]
          simp [List.drop_left]
        · rw [List.cons_append, List.cons_append]
          rw [dropOverlapSeeds_concat]
          rw [List.getLast?_concat, Option.getD_some]
          rw [List.drop_left]
      rw [hstep]
      simp
    · rw [if_neg hcond]
      rw [ih _ _ _ (by simp) ?hl2]
      case hl2 =>
        intro last hl
        have h1 := hlen last hl
        have h2 : cur.length ≤ (cur ++ [s]).length := by simp
        omega
      have hstep : dropOverlapSeeds tok ov (chunks ++ [cur ++ [s]]) =
          dropOverlapSeeds tok ov (chunks ++ [cur]) ++ [s] := by
        rcases chunks with _ | ⟨a, l⟩
        · show dropOverlapSeeds tok ov [cur ++ [s]] = dropOverlapSeeds tok ov [cur] ++ [s]
          simp [dropOverlapSeeds, dropSeedsGo]
        · rw [List.cons_append, List.cons_append, dropOverlapSeeds_concat, dropOverlapSeeds_concat]
          have hk : (overlapSeed tok ov (l.getLast?.getD a)).length ≤ cur.length := by
            apply hlen
            simp [List.getLast?_cons]
          rw [List.drop_append_of_le_length hk]
          simp
      rw [hstep]
      simp

/-- C7 (amended): chunks are ordered and reconstruct the document at the
segment level — the section segments concatenate to the text exactly; section
packing keeps precisely the non-blank segments in order; and removing each
sentence chunk's inherited overlap seed recovers the sentence sequence
exactly. (Plain string concatenation fails only by whitespace normalisation:
segments inside a chunk are re-joined with single spaces, see the
counterexample.) -/
theorem chunk_document_reconstruction (tok : String → Nat) (target overlap : Nat)
    (text : String) :
    joinAll (sectionsOf text) = text ∧
    (chunkBySectionsSegs tok target text).flatten =
      (if hasSecMatch true text.toList then
        (sectionsOf text).filter (fun s => !isBlankStr s)
      else [text]) ∧
    dropOverlapSeeds tok overlap (chunkBySentencesSegs tok target overlap text) =
      splitSentences text := by
  refine ⟨sectionsOf_joinAll text, ?_, ?_⟩
  · unfold chunkBySectionsSegs
    by_cases hm : hasSecMatch true text.toList
    · rw [if_pos hm, if_pos hm, packLoop_flatten]
      simp
    · rw [if_neg hm, if_neg hm]
      simp
  · unfold chunkBySentencesSegs
    rcases hs : splitSentences text with _ | ⟨s, rest⟩
    · exact absurd hs (splitSentences_ne_nil text)
    · rw [sentLoop, if_neg (by simp)]
      rw [sentLoop_flatten tok target overlap rest [] ([] ++ [s]) (0 + tok s) (by simp) (by simp)]
      simp [dropOverlapSeeds, dropSeedsGo]

/-- C7 counterexample: for a two-section text packed into one chunk, the
concatenation of the returned chunks differs from the input (a space is
inserted between the joined sections), and no overlap regions are involved. -/
theorem chunk_concat_not_exact :
    joinAll (chunk_document String.length 800 100 "Section A. aa\nSection B. bb").1 ≠
      "Section A. aa\nSection B. bb" := by decide

/-! ## Text cleaning (clean_legislative_text, chunking.py lines 14–49)

Each `re.sub` stage is modelled as a scanner with Python's leftmost / greedy /
non-overlapping semantics. Wherever consecutive regex pieces draw from
disjoint character classes the engine's greedy runs are forced maximal, which
the scanners implement directly; the page-header pattern's real backtracking
(over the `(?:[A-Z]{2,}\s+)*` star count and the trailing `\s*$`) is
implemented by explicit descending searches in the engine's attempt order. -/

/-- Length of the maximal `[A-Z]` run at the head. -/
def upperRunLen (l : List Char) : Nat := (l.takeWhile Char.isUpper).length

/-- Length of the maximal `\s` run at the head. -/
def wsRunLen (l : List Char) : Nat := (l.takeWhile pyIsSpace).length

/-- Length of the maximal `\d` run at the head. -/
def digitRunLen (l : List Char) : Nat := (l.takeWhile Char.isDigit).length

/-- `[\d\s&]`, the middle zone of the page-header pattern. -/
def isZoneChar (c : Char) : Bool := c.isDigit || pyIsSpace c || c = '&'

/-- Offsets reachable by `(?:[A-Z]{2,}\s+)*` iterations from `o` (0 iterations
first); each iteration consumes a maximal uppercase run of length ≥ 2 and a
maximal whitespace run of length ≥ 1, both forced by class disjointness. -/
def starOffsets (l : List Char) (o : Nat) : Nat → List Nat
  | 0 => [o]
  | fuel + 1 =>
    let u := upperRunLen (l.drop o)
    if u < 2 then [o]
    else
      let w := wsRunLen (l.drop (o + u))
      if w = 0 then [o]
      else o :: starOffsets l (o + u + w) fuel

/-- `(?:HBs?|SBs?)\s+` at the head: the optional `s` is taken greedily, and a
failed `\s+` after it cannot be rescued by dropping the `s` (the `s` itself is
not whitespace), so the token is deterministic. Returns the consumed length. -/
def hbTokenLen (l : List Char) : Option Nat :=
  match l with
  | c1 :: c2 :: rest =>
    if (c1 = 'H' || c1 = 'S') && c2 = 'B' then
      match rest with
      | c3 :: rest2 =>
        if c3 = 's' then
          let w := wsRunLen rest2
          if w = 0 then none else some (3 + w)
        else
          let w := wsRunLen rest
          if w = 0 then none else some (2 + w)
      | [] => none
    else none
  | _ => none

/-- `\s*$` (MULTILINE) after position 0 of `l`: the largest `t ≤ limit` such
that position `t` is the end of the text or sits on a `'\n'`, matching the
greedy `\s*` with `$` backtracking. -/
def tailEnd (l : List Char) : Nat → Option Nat
  | 0 =>
    match l with
    | [] => some 0
    | c :: _ => if c = '\n' then some 0 else none
  | t + 1 =>
    match l.drop (t + 1) with
    | [] => some (t + 1)
    | c :: _ => if c = '\n' then some (t + 1) else tailEnd l t

/-- `[\d\s&]+\s+\d+\s*$` at the head of `l`, trying the greedy `[\d\s&]+`
length `l1` descending (the engine's backtracking order); `\s+` and `\d+` are
forced maximal by class disjointness. Returns the consumed length. -/
def ntGo (l : List Char) : Nat → Option Nat
  | 0 => none
  | l1 + 1 =>
    let rest1 := l.drop (l1 + 1)
    let w := wsRunLen rest1
    if w = 0 then ntGo l l1
    else
      let rest2 := rest1.drop w
      let d := digitRunLen rest2
      if d = 0 then ntGo l l1
      else
        let rest3 := rest2.drop d
        match tailEnd rest3 (wsRunLen rest3) with
        | some t => some (l1 + 1 + w + d + t)
        | none => ntGo l l1

/-- The numeric tail of the page-header pattern at the head of `l`. -/
def numericTail (l : List Char) : Option Nat := ntGo l (l.takeWhile isZoneChar).length

/-- Try the star iteration counts greedily (most iterations first): at each
candidate offset, match `(?:HBs?|SBs?)\s+` then the numeric tail. -/
def pageHdrTryOffsets (l : List Char) : List Nat → Option Nat
  | [] => none
  | o :: os =>
    match hbTokenLen (l.drop o) with
    | some h =>
      match numericTail (l.drop (o + h)) with
      | some m => some (o + h + m)
      | none => pageHdrTryOffsets l os
    | none => pageHdrTryOffsets l os

/-- A match of `^[A-Z]{2,}\s+(?:[A-Z]{2,}\s+)*(?:HBs?|SBs?)\s+[\d\s&]+\s+\d+\s*$`
(MULTILINE) at the head of `l` (the caller guarantees a line start). -/
def pageHeaderMatchLen (l : List Char) : Option Nat :=
  let u := upperRunLen l
  if u < 2 then none
  else
    let w := wsRunLen (l.drop u)
    if w = 0 then none
    else pageHdrTryOffsets l (starOffsets l (u + w) l.length).reverse

/-- A match of `^\s*\d+\s+` (MULTILINE) at the head of `l`: all three runs are
forced maximal by class disjointness. -/
def lineNumMatchLen (l : List Char) : Option Nat :=
  let w0 := wsRunLen l
  let d := digitRunLen (l.drop w0)
  if d = 0 then none
  else
    let w1 := wsRunLen (l.drop (w0 + d))
    if w1 = 0 then none else some (w0 + d + w1)

/-- `re.sub(pattern, '', text)` for a `^`-anchored MULTILINE pattern: attempt
`matchLen` at every line start, delete the matched span (`skip` counts the
remaining characters to delete), and resume scanning after it. -/
def subLineGo (matchLen : List Char → Option Nat) (skip : Nat) (lineStart : Bool) :
    List Char → List Char
  | [] => []
  | c :: rest =>
    match skip with
    | k + 1 => subLineGo matchLen k (c = '\n') rest
    | 0 =>
      if lineStart then
        match matchLen (c :: rest) with
        | some n => subLineGo matchLen (n - 1) (c = '\n') rest
        | none => c :: subLineGo matchLen 0 (c = '\n') rest
      else c :: subLineGo matchLen 0 (c = '\n') rest

/-- Scanner state for `re.sub(r'(\w+)-\s*\n\s*(\w+)', r'\1\2', text)`:
`word b` holds the word run read so far (reversed), `hyph b w sawNL` the run,
a read hyphen and the whitespace after it, `word2 b b2` the second word run of
a confirmed match. A failed attempt starting inside a word run fails at every
later position of that run too, so emitting the buffered run whole is faithful
to the engine's position-by-position scan. -/
inductive HyState where
  | scan : HyState
  | word : List Char → HyState
  | hyph : List Char → List Char → Bool → HyState
  | word2 : List Char → List Char → HyState

/-- The hyphenated-line-break rejoin pass (chunking.py line 29). -/
def hyphenFixGo : HyState → List Char → List Char
  | .scan, [] => []
  | .scan, c :: rest =>
    if pyIsWord c then hyphenFixGo (.word [c]) rest
    else c :: hyphenFixGo .scan rest
  | .word b, [] => b.reverse
  | .word b, c :: rest =>
    if pyIsWord c then hyphenFixGo (.word (c :: b)) rest
    else if c = '-' then hyphenFixGo (.hyph b [] false) rest
    else b.reverse ++ c :: hyphenFixGo .scan rest
  | .hyph b w _, [] => b.reverse ++ '-' :: w.reverse
  | .hyph b w sawNL, c :: rest =>
    if pyIsSpace c then hyphenFixGo (.hyph b (c :: w) (sawNL || c = '\n')) rest
    else if sawNL && pyIsWord c then hyphenFixGo (.word2 b [c]) rest
    else if pyIsWord c then b.reverse ++ '-' :: w.reverse ++ hyphenFixGo (.word [c]) rest
    else b.reverse ++ '-' :: w.reverse ++ c :: hyphenFixGo .scan rest
  | .word2 b b2, [] => b.reverse ++ b2.reverse
  | .word2 b b2, c :: rest =>
    if pyIsWord c then hyphenFixGo (.word2 b (c :: b2)) rest
    else b.reverse ++ b2.reverse ++ c :: hyphenFixGo .scan rest

/-- `re.sub(r' +', ' ', text)`: collapse runs of spaces (literal spaces only). -/
def collapseSpaces : List Char → List Char
  | [] => []
  | [c] => [c]
  | c :: d :: rest =>
    if c = ' ' && d = ' ' then collapseSpaces (d :: rest)
    else c :: collapseSpaces (d :: rest)

/-- `re.sub(r'\n{3,}', '\n\n', text)`: collapse runs of ≥ 3 newlines to 2. -/
def collapseNewlines : List Char → List Char
  | [] => []
  | [c] => [c]
  | [c, d] => [c, d]
  | c :: d :: e :: rest =>
    if c = '\n' && d = '\n' && e = '\n' then collapseNewlines (d :: e :: rest)
    else c :: collapseNewlines (d :: e :: rest)

/-- Drop the trailing run of characters satisfying `p`. -/
def dropTrail (p : Char → Bool) : List Char → List Char
  | [] => []
  | c :: rest =>
    let r := dropTrail p rest
    if r.isEmpty && p c then [] else c :: r

/-- Python's `str.strip()` over the ASCII whitespace class. -/
def pyStrip (l : List Char) : List Char := dropTrail pyIsSpace (l.dropWhile pyIsSpace)

/-- `text.replace('\x00', '')`. -/
def removeNulls (l : List Char) : List Char := l.filter (fun c => !(c = '\x00'))

/-- `clean_legislative_text` (chunking.py lines 14–49): the seven ordered
transformations. -/
def clean_legislative_text (s : String) : String :=
  String.mk (pyStrip (collapseNewlines (collapseSpaces (subLineGo lineNumMatchLen 0 true
    (subLineGo pageHeaderMatchLen 0 true (hyphenFixGo .scan (removeNulls s.toList)))))))

/-- C3 counterexample: cleaning is not idempotent — the line-number pass
strips one leading numeric prefix per application, so "1 2 a" cleans to
"2 a", which cleans again to "a". -/
theorem clean_not_idempotent :
    clean_legislative_text (clean_legislative_text "1 2 a") ≠ clean_legislative_text "1 2 a" := by
  decide

theorem removeNulls_subset (l : List Char) : removeNulls l ⊆ l :=
  fun _ ha => List.mem_of_mem_filter ha

theorem subLineGo_subset (f : List Char → Option Nat) :
    ∀ (l : List Char) (skip : Nat) (ls : Bool), subLineGo f skip ls l ⊆ l := by
  intro l
  induction l with
  | nil => intro skip ls; simp [subLineGo]
  | cons c rest ih =>
    intro skip ls
    cases skip with
    | succ k =>
      have e : subLineGo f (k + 1) ls (c :: rest) = subLineGo f k (c = '\n') rest := rfl
      rw [e]
      exact (ih k (c = '\n')).trans (List.subset_cons_self c rest)
    | zero =>
      by_cases hls : ls = true
      · subst hls
        cases hm : f (c :: rest) with
        | some n =>
          have e : subLineGo f 0 true (c :: rest) = subLineGo f (n - 1) (c = '\n') rest := by
            conv_lhs => rw [subLineGo.eq_def]
            simp [hm]
          rw [e]
          exact (ih (n - 1) (c = '\n')).trans (List.subset_cons_self c rest)
        | none =>
          have e : subLineGo f 0 true (c :: rest) = c :: subLineGo f 0 (c = '\n') rest := by
            conv_lhs => rw [subLineGo.eq_def]
            simp [hm]
          rw [e]
          exact List.cons_subset_cons c (ih 0 (c = '\n'))
      · have hls' : ls = false := by simpa using hls
        subst hls'
        have e : subLineGo f 0 false (c :: rest) = c :: subLineGo f 0 (c = '\n') rest := by
          conv_lhs => rw [subLineGo.eq_def]
          simp
        rw [e]
        exact List.cons_subset_cons c (ih 0 (c = '\n'))

theorem collapseSpaces_subset : ∀ l : List Char, collapseSpaces l ⊆ l := by
  intro l
  induction l with
  | nil => simp [collapseSpaces]
  | cons c rest ih =>
    cases rest with
    | nil => simp [collapseSpaces]
    | cons d rest' =>
      rw [collapseSpaces]
      by_cases h : c = ' ' && d = ' '
      · rw [if_pos h]
        exact ih.trans (List.subset_cons_self c _)
      · rw [if_neg h]
        exact List.cons_subset_cons c ih

theorem collapseNewlines_subset : ∀ l : List Char, collapseNewlines l ⊆ l := by
  intro l
  induction l with
  | nil => simp [collapseNewlines]
  | cons c rest ih =>
    cases rest with
    | nil => simp [collapseNewlines]
    | cons d rest' =>
      cases rest' with
      | nil => simp [collapseNewlines]
      | cons e rest'' =>
        rw [collapseNewlines]
        by_cases h : c = '\n' && d = '\n' && e = '\n'
        · rw [if_pos h]
          exact ih.trans (List.subset_cons_self c _)
        · rw [if_neg h]
          exact List.cons_subset_cons c ih

theorem dropTrail_isPref (p : Char → Bool) : ∀ l : List Char, ∃ t, l = dropTrail p l ++ t := by
  intro l
  induction l with
  | nil => exact ⟨[], rfl⟩
  | cons c rest ih =>
    rw [dropTrail]
    by_cases h : (dropTrail p rest).isEmpty && p c
    · rw [if_pos h]
      exact ⟨c :: rest, rfl⟩
    · rw [if_neg h]
      obtain ⟨t, ht⟩ := ih
      exact ⟨t, by rw [List.cons_append, ← ht]⟩

theorem dropTrail_subset (p : Char → Bool) (l : List Char) : dropTrail p l ⊆ l := by
  obtain ⟨t, ht⟩ := dropTrail_isPref p l
  intro a ha
  rw [ht]
  exact List.mem_append_left t ha

theorem dropWhile_isSuf (p : Char → Bool) : ∀ l : List Char, ∃ t, l = t ++ l.dropWhile p := by
  intro l
  induction l with
  | nil => exact ⟨[], rfl⟩
  | cons c rest ih =>
    rw [List.dropWhile_cons]
    by_cases h : p c
    · rw [if_pos h]
      obtain ⟨t, ht⟩ := ih
      exact ⟨c :: t, by rw [List.cons_append, ← ht]⟩
    · rw [if_neg h]
      exact ⟨[], rfl⟩

theorem pyStrip_subset (l : List Char) : pyStrip l ⊆ l := by
  unfold pyStrip
  refine (dropTrail_subset pyIsSpace _).trans ?_
  obtain ⟨t, ht⟩ := dropWhile_isSuf pyIsSpace l
  intro a ha
  rw [ht]
  exact List.mem_append_right t ha

/-- Characters a scanner state may still emit besides the remaining input. -/
def hyStChars : HyState → List Char
  | .scan => []
  | .word b => b
  | .hyph b w _ => b ++ '-' :: w
  | .word2 b b2 => b ++ b2

theorem hyphenFixGo_subset : ∀ (l : List Char) (st : HyState),
    hyphenFixGo st l ⊆ hyStChars st ++ l := by
  intro l
  induction l with
  | nil =>
    intro st
    cases st <;> intro a ha <;> simp [hyphenFixGo, hyStChars] at ha ⊢ <;> tauto
  | cons c rest ih =>
    intro st
    intro a ha
    cases st with
    | scan =>
      rw [hyphenFixGo] at ha
      by_cases h1 : pyIsWord c
      · rw [if_pos h1] at ha
        have := ih (.word [c]) ha
        simp [hyStChars] at this ⊢
        tauto
      · rw [if_neg h1] at ha
        rcases List.mem_cons.mp ha with rfl | ha'
        · simp
        · have := ih .scan ha'
          simp [hyStChars] at this ⊢
          tauto
    | word b =>
      rw [hyphenFixGo] at ha
      by_cases h1 : pyIsWord c
      · rw [if_pos h1] at ha
        have := ih (.word (c :: b)) ha
        simp [hyStChars] at this ⊢
        tauto
      · rw [if_neg h1] at ha
        by_cases h2 : c = '-'
        · rw [if_pos h2] at ha
          have := ih (.hyph b [] false) ha
          simp [hyStChars, h2] at this ⊢
          tauto
        · rw [if_neg h2] at ha
          simp only [List.mem_append, List.mem_cons, List.mem_reverse] at ha
          rcases ha with ha | rfl | ha'
          · simp [hyStChars]
            tauto
          · simp
          · have := ih .scan ha'
            simp [hyStChars] at this ⊢
            tauto
    | hyph b w sawNL =>
      rw [hyphenFixGo] at ha
      by_cases h1 : pyIsSpace c
      · rw [if_pos h1] at ha
        have := ih (.hyph b (c :: w) (sawNL || c = '\n')) ha
        simp [hyStChars] at this ⊢
        tauto
      · rw [if_neg h1] at ha
        by_cases h2 : sawNL && pyIsWord c
        · rw [if_pos h2] at ha
          have := ih (.word2 b [c]) ha
          simp [hyStChars] at this ⊢
          tauto
        · rw [if_neg h2] at ha
          by_cases h3 : pyIsWord c
          · rw [if_pos h3] at ha
            simp only [List.mem_append, List.mem_cons, List.mem_reverse] at ha
            rcases ha with (ha | rfl | ha) | ha'
            · simp [hyStChars]
              tauto
            · simp [hyStChars]
            · simp [hyStChars]
              tauto
            · have := ih (.word [c]) ha'
              simp [hyStChars] at this ⊢
              tauto
          · rw [if_neg h3] at ha
            simp only [List.mem_append, List.mem_cons, List.mem_reverse] at ha
            rcases ha with (ha | rfl | ha) | rfl | ha'
            · simp [hyStChars]
              tauto
            · simp [hyStChars]
            · simp [hyStChars]
              tauto
            · simp
            · have := ih .scan ha'
              simp [hyStChars] at this ⊢
              tauto
    | word2 b b2 =>
      rw [hyphenFixGo] at ha
      by_cases h1 : pyIsWord c
      · rw [if_pos h1] at ha
        have := ih (.word2 b (c :: b2)) ha
        simp [hyStChars] at this ⊢
        tauto
      · rw [if_neg h1] at ha
        simp only [List.mem_append, List.mem_cons, List.mem_reverse] at ha
        rcases ha with (ha | ha) | rfl | ha'
        · simp [hyStChars]
          tauto
        · simp [hyStChars]
          tauto
        · simp
        · have := ih .scan ha'
          simp [hyStChars] at this ⊢
          tauto

theorem hyphenFix_no_hyphen : ∀ l : List Char, '-' ∉ l →
    hyphenFixGo .scan l = l ∧ ∀ b, hyphenFixGo (.word b) l = b.reverse ++ l := by
  intro l
  induction l with
  | nil =>
    intro _
    exact ⟨rfl, fun b => by simp [hyphenFixGo]⟩
  | cons c rest ih =>
    intro h
    have hc : c ≠ '-' := fun hcc => h (hcc ▸ List.mem_cons_self c rest)
    have hrest : '-' ∉ rest := fun hr => h (List.mem_cons_of_mem c hr)
    obtain ⟨ihs, ihw⟩ := ih hrest
    constructor
    · rw [hyphenFixGo]
      by_cases h1 : pyIsWord c
      · rw [if_pos h1, ihw [c]]
        simp
      · rw [if_neg h1, ihs]
    · intro b
      rw [hyphenFixGo]
      by_cases h1 : pyIsWord c
      · rw [if_pos h1, ihw (c :: b)]
        simp
      · rw [if_neg h1, if_neg hc, ihs]

theorem digitRunLen_zero (l : List Char) (h : ∀ c ∈ l, c.isDigit = false) :
    digitRunLen l = 0 := by
  cases l with
  | nil => rfl
  | cons c rest =>
    unfold digitRunLen
    rw [List.takeWhile_cons]
    rw [h c (List.mem_cons_self c rest)]
    rfl

theorem lineNumMatchLen_none (l : List Char) (h : ∀ c ∈ l, c.isDigit = false) :
    lineNumMatchLen l = none := by
  unfold lineNumMatchLen
  have hd : digitRunLen (l.drop (wsRunLen l)) = 0 :=
    digitRunLen_zero _ (fun c hc => h c (List.drop_subset _ l hc))
  simp [hd]

theorem ntGo_none (l : List Char) (h : ∀ c ∈ l, c.isDigit = false) :
    ∀ n, ntGo l n = none := by
  intro n
  induction n with
  | zero => rfl
  | succ k ih =>
    rw [ntGo]
    by_cases hw : wsRunLen (l.drop (k + 1)) = 0
    · simp only [hw, if_pos rfl]
      exact ih
    · rw [if_neg hw]
      have hd : digitRunLen ((l.drop (k + 1)).drop (wsRunLen (l.drop (k + 1)))) = 0 :=
        digitRunLen_zero _ (fun c hc => h c (List.drop_subset _ l (List.drop_subset _ _ hc)))
      simp only [hd, if_pos rfl]
      exact ih

theorem numericTail_none (l : List Char) (h : ∀ c ∈ l, c.isDigit = false) :
    numericTail l = none := ntGo_none l h _

theorem pageHdrTryOffsets_none (l : List Char) (h : ∀ c ∈ l, c.isDigit = false) :
    ∀ os, pageHdrTryOffsets l os = none := by
  intro os
  induction os with
  | nil => rfl
  | cons o os ih =>
    rw [pageHdrTryOffsets]
    cases hb : hbTokenLen (l.drop o) with
    | none => exact ih
    | some k =>
      have hnt : numericTail (l.drop (o + k)) = none :=
        numericTail_none _ (fun c hc => h c (List.drop_subset _ l hc))
      simp [hnt, ih]

theorem pageHeaderMatchLen_none (l : List Char) (h : ∀ c ∈ l, c.isDigit = false) :
    pageHeaderMatchLen l = none := by
  unfold pageHeaderMatchLen
  by_cases hu : upperRunLen l < 2
  · simp [hu]
  · rw [if_neg hu]
    by_cases hw : wsRunLen (l.drop (upperRunLen l)) = 0
    · simp [hw]
    · rw [if_neg hw]
      exact pageHdrTryOffsets_none l h _

theorem subLineGo_id (f : List Char → Option Nat)
    (hf : ∀ l', (∀ c ∈ l', c.isDigit = false) → f l' = none) :
    ∀ (l : List Char) (ls : Bool), (∀ c ∈ l, c.isDigit = false) →
    subLineGo f 0 ls l = l := by
  intro l
  induction l with
  | nil => intro ls _; rfl
  | cons c rest ih =>
    intro ls h
    have hrest : ∀ x ∈ rest, x.isDigit = false := fun x hx => h x (List.mem_cons_of_mem c hx)
    by_cases hls : ls = true
    · subst hls
      have e : subLineGo f 0 true (c :: rest) = c :: subLineGo f 0 (c = '\n') rest := by
        conv_lhs => rw [subLineGo.eq_def]
        simp [hf (c :: rest) h]
      rw [e, ih _ hrest]
    · have hls' : ls = false := by simpa using hls
      subst hls'
      have e : subLineGo f 0 false (c :: rest) = c :: subLineGo f 0 (c = '\n') rest := by
        conv_lhs => rw [subLineGo.eq_def]
        simp
      rw [e, ih _ hrest]

/-- No two adjacent spaces (the post-condition of the space-collapse pass). -/
def noDD : List Char → Bool
  | c :: d :: rest => !(c = ' ' && d = ' ') && noDD (d :: rest)
  | _ => true

/-- No three adjacent newlines (the post-condition of the newline-collapse pass). -/
def noTTT : List Char → Bool
  | c :: d :: e :: rest => !(c = '\n' && d = '\n' && e = '\n') && noTTT (d :: e :: rest)
  | _ => true

theorem noDD_tail (c : Char) (l : List Char) (h : noDD (c :: l) = true) : noDD l = true := by
  cases l with
  | nil => rfl
  | cons d rest =>
    rw [noDD] at h
    exact ((Bool.and_eq_true _ _).mp h).2

theorem noTTT_tail (c : Char) (l : List Char) (h : noTTT (c :: l) = true) : noTTT l = true := by
  cases l with
  | nil => rfl
  | cons d rest =>
    cases rest with
    | nil => rfl
    | cons e rest' =>
      rw [noTTT] at h
      exact ((Bool.and_eq_true _ _).mp h).2

theorem noDD_suffix : ∀ (l₁ l₂ : List Char), noDD (l₁ ++ l₂) = true → noDD l₂ = true := by
  intro l₁
  induction l₁ with
  | nil => intro l₂ h; exact h
  | cons c rest ih => intro l₂ h; exact ih l₂ (noDD_tail c _ h)

theorem noTTT_suffix : ∀ (l₁ l₂ : List Char), noTTT (l₁ ++ l₂) = true → noTTT l₂ = true := by
  intro l₁
  induction l₁ with
  | nil => intro l₂ h; exact h
  | cons c rest ih => intro l₂ h; exact ih l₂ (noTTT_tail c _ h)

theorem noDD_append_left : ∀ (l₁ l₂ : List Char), noDD (l₁ ++ l₂) = true → noDD l₁ = true := by
  intro l₁
  induction l₁ with
  | nil => intro l₂ _; rfl
  | cons c rest ih =>
    intro l₂ h
    cases rest with
    | nil => rfl
    | cons d rest' =>
      have h' : (!(c = ' ' && d = ' ') && noDD ((d :: rest') ++ l₂)) = true := h
      obtain ⟨h1, h2⟩ := (Bool.and_eq_true _ _).mp h'
      show (!(c = ' ' && d = ' ') && noDD (d :: rest')) = true
      rw [h1, ih l₂ h2]
      rfl

theorem noTTT_append_left : ∀ (l₁ l₂ : List Char), noTTT (l₁ ++ l₂) = true → noTTT l₁ = true := by
  intro l₁
  induction l₁ with
  | nil => intro l₂ _; rfl
  | cons c rest ih =>
    intro l₂ h
    cases rest with
    | nil => rfl
    | cons d rest' =>
      cases rest' with
      | nil => rfl
      | cons e rest'' =>
        have h' : (!(c = '\n' && d = '\n' && e = '\n') && noTTT ((d :: e :: rest'') ++ l₂)) = true := h
        obtain ⟨h1, h2⟩ := (Bool.and_eq_true _ _).mp h'
        show (!(c = '\n' && d = '\n' && e = '\n') && noTTT (d :: e :: rest'')) = true
        rw [h1, ih l₂ h2]
        rfl

theorem collapseSpaces_head : ∀ (rest : List Char) (d : Char),
    ∃ t, collapseSpaces (d :: rest) = d :: t := by
  intro rest
  induction rest with
  | nil => intro d; exact ⟨[], rfl⟩
  | cons e rest' ih =>
    intro d
    rw [collapseSpaces]
    by_cases h : d = ' ' && e = ' '
    · rw [if_pos h]
      obtain ⟨t, ht⟩ := ih e
      have hde : d = e := by
        obtain ⟨h1, h2⟩ := (Bool.and_eq_true _ _).mp h
        simp only [decide_eq_true_eq] at h1 h2
        rw [h1, h2]
      rw [ht, hde]
      exact ⟨t, rfl⟩
    · rw [if_neg h]
      exact ⟨collapseSpaces (e :: rest'), rfl⟩

theorem collapseNewlines_head : ∀ (rest : List Char) (d : Char),
    ∃ t, collapseNewlines (d :: rest) = d :: t := by
  intro rest
  induction rest with
  | nil => intro d; exact ⟨[], rfl⟩
  | cons e rest' ih =>
    intro d
    cases rest' with
    | nil => exact ⟨[e], rfl⟩
    | cons f rest'' =>
      rw [collapseNewlines]
      by_cases h : d = '\n' && e = '\n' && f = '\n'
      · rw [if_pos h]
        obtain ⟨t, ht⟩ := ih e
        have hde : d = e := by
          obtain ⟨h1, _⟩ := (Bool.and_eq_true _ _).mp h
          obtain ⟨h1a, h1b⟩ := (Bool.and_eq_true _ _).mp h1
          simp only [decide_eq_true_eq] at h1a h1b
          rw [h1a, h1b]
        rw [ht, hde]
        exact ⟨t, rfl⟩
      · rw [if_neg h]
        exact ⟨collapseNewlines (e :: f :: rest''), rfl⟩

theorem bnot_true_of_ne (b : Bool) (h : ¬ b = true) : (!b) = true := by
  cases b
  · rfl
  · exact absurd rfl h

theorem ne_true_of_bnot (b : Bool) (h : (!b) = true) : ¬ b = true := by
  cases b
  · simp
  · simp at h

theorem collapseSpaces_noDD : ∀ l : List Char, noDD (collapseSpaces l) = true := by
  intro l
  induction l with
  | nil => rfl
  | cons c rest ih =>
    cases rest with
    | nil => rfl
    | cons d rest' =>
      show noDD (if c = ' ' && d = ' ' then collapseSpaces (d :: rest')
        else c :: collapseSpaces (d :: rest')) = true
      by_cases h : c = ' ' && d = ' '
      · rw [if_pos h]
        exact ih
      · rw [if_neg h]
        obtain ⟨t, ht⟩ := collapseSpaces_head rest' d
        rw [ht]
        show (!(c = ' ' && d = ' ') && noDD (d :: t)) = true
        refine (Bool.and_eq_true _ _).mpr ⟨bnot_true_of_ne _ h, ?_⟩
        rw [← ht]
        exact ih

theorem noDD_collapseSpaces_id : ∀ l : List Char, noDD l = true → collapseSpaces l = l := by
  intro l
  induction l with
  | nil => intro _; rfl
  | cons c rest ih =>
    intro h
    cases rest with
    | nil => rfl
    | cons d rest' =>
      have h' : (!(c = ' ' && d = ' ') && noDD (d :: rest')) = true := h
      obtain ⟨h1, h2⟩ := (Bool.and_eq_true _ _).mp h'
      show (if c = ' ' && d = ' ' then collapseSpaces (d :: rest')
        else c :: collapseSpaces (d :: rest')) = c :: d :: rest'
      rw [if_neg (ne_true_of_bnot _ h1), ih h2]

theorem collapseNewlines_noTTT : ∀ l : List Char, noTTT (collapseNewlines l) = true := by
  intro l
  induction l with
  | nil => rfl
  | cons c rest ih =>
    cases rest with
    | nil => rfl
    | cons d rest' =>
      cases rest' with
      | nil => rfl
      | cons e rest'' =>
        show noTTT (if c = '\n' && d = '\n' && e = '\n' then collapseNewlines (d :: e :: rest'')
          else c :: collapseNewlines (d :: e :: rest'')) = true
        by_cases h : c = '\n' && d = '\n' && e = '\n'
        · rw [if_pos h]
          exact ih
        · rw [if_neg h]
          obtain ⟨t, ht⟩ := collapseNewlines_head (e :: rest'') d
          rw [ht]
          cases t with
          | nil => rfl
          | cons t0 t1 =>
            show (!(c = '\n' && d = '\n' && t0 = '\n') && noTTT (d :: t0 :: t1)) = true
            refine (Bool.and_eq_true _ _).mpr ⟨?_, by rw [← ht]; exact ih⟩
            by_cases hcd : (c = '\n' && d = '\n') = true
            · have he : ¬ (e = '\n') := by
                intro hee
                subst hee
                apply h
                rw [hcd]
                simp
              have ht0 : t0 = e := by
                cases rest'' with
                | nil =>
                  have : collapseNewlines [d, e] = [d, e] := rfl
                  rw [this] at ht
                  exact (List.cons.injEq _ _ _ _).mp ((List.cons.injEq _ _ _ _).mp ht).2 |>.1.symm
                | cons f r3 =>
                  have hcond : ¬ (d = '\n' && e = '\n' && f = '\n') = true := by
                    simp [he]
                  have : collapseNewlines (d :: e :: f :: r3) =
                      d :: collapseNewlines (e :: f :: r3) := by
                    show (if d = '\n' && e = '\n' && f = '\n' then collapseNewlines (e :: f :: r3)
                      else d :: collapseNewlines (e :: f :: r3)) = _
                    rw [if_neg hcond]
                  rw [this] at ht
                  obtain ⟨t', ht'⟩ := collapseNewlines_head (f :: r3) e
                  rw [ht'] at ht
                  exact (List.cons.injEq _ _ _ _).mp ((List.cons.injEq _ _ _ _).mp ht).2 |>.1.symm
              rw [ht0]
              simp [he]
            · have : (c = '\n' && d = '\n') = false := by simpa using hcd
              simp [this]

theorem noTTT_collapseNewlines_id : ∀ l : List Char, noTTT l = true → collapseNewlines l = l := by
  intro l
  induction l with
  | nil => intro _; rfl
  | cons c rest ih =>
    intro h
    cases rest with
    | nil => rfl
    | cons d rest' =>
      cases rest' with
      | nil => rfl
      | cons e rest'' =>
        have h' : (!(c = '\n' && d = '\n' && e = '\n') && noTTT (d :: e :: rest'')) = true := h
        obtain ⟨h1, h2⟩ := (Bool.and_eq_true _ _).mp h'
        show (if c = '\n' && d = '\n' && e = '\n' then collapseNewlines (d :: e :: rest'')
          else c :: collapseNewlines (d :: e :: rest'')) = c :: d :: e :: rest''
        rw [if_neg (ne_true_of_bnot _ h1), ih h2]

theorem collapseNewlines_noDD : ∀ l : List Char, noDD l = true → noDD (collapseNewlines l) = true := by
  intro l
  induction l with
  | nil => intro _; rfl
  | cons c rest ih =>
    intro h
    cases rest with
    | nil => rfl
    | cons d rest' =>
      cases rest' with
      | nil => exact h
      | cons e rest'' =>
        have h' : (!(c = ' ' && d = ' ') && noDD (d :: e :: rest'')) = true := h
        obtain ⟨h1, h2⟩ := (Bool.and_eq_true _ _).mp h'
        show noDD (if c = '\n' && d = '\n' && e = '\n' then collapseNewlines (d :: e :: rest'')
          else c :: collapseNewlines (d :: e :: rest'')) = true
        by_cases hc : c = '\n' && d = '\n' && e = '\n'
        · rw [if_pos hc]
          exact ih h2
        · rw [if_neg hc]
          obtain ⟨t, ht⟩ := collapseNewlines_head (e :: rest'') d
          rw [ht]
          show (!(c = ' ' && d = ' ') && noDD (d :: t)) = true
          refine (Bool.and_eq_true _ _).mpr ⟨h1, ?_⟩
          rw [← ht]
          exact ih h2

theorem noDD_pyStrip (l : List Char) (h : noDD l = true) : noDD (pyStrip l) = true := by
  unfold pyStrip
  obtain ⟨t, ht⟩ := dropWhile_isSuf pyIsSpace l
  have h1 : noDD (l.dropWhile pyIsSpace) = true := noDD_suffix t _ (by rw [← ht]; exact h)
  obtain ⟨t2, ht2⟩ := dropTrail_isPref pyIsSpace (l.dropWhile pyIsSpace)
  exact noDD_append_left _ t2 (by rw [← ht2]; exact h1)

theorem noTTT_pyStrip (l : List Char) (h : noTTT l = true) : noTTT (pyStrip l) = true := by
  unfold pyStrip
  obtain ⟨t, ht⟩ := dropWhile_isSuf pyIsSpace l
  have h1 : noTTT (l.dropWhile pyIsSpace) = true := noTTT_suffix t _ (by rw [← ht]; exact h)
  obtain ⟨t2, ht2⟩ := dropTrail_isPref pyIsSpace (l.dropWhile pyIsSpace)
  exact noTTT_append_left _ t2 (by rw [← ht2]; exact h1)

theorem dropWhile_head_not (p : Char → Bool) :
    ∀ (l : List Char) (c : Char) (t : List Char), l.dropWhile p = c :: t → p c = false := by
  intro l
  induction l with
  | nil => intro c t h; exact List.noConfusion h
  | cons a rest ih =>
    intro c t h
    rw [List.dropWhile_cons] at h
    by_cases pa : p a
    · rw [if_pos pa] at h
      exact ih c t h
    · rw [if_neg pa] at h
      obtain ⟨rfl, _⟩ := (List.cons.injEq _ _ _ _).mp h.symm |>.imp Eq.symm id
      simpa using pa

theorem dropTrail_idem (p : Char → Bool) :
    ∀ l : List Char, dropTrail p (dropTrail p l) = dropTrail p l := by
  intro l
  induction l with
  | nil => rfl
  | cons c rest ih =>
    have e : dropTrail p (c :: rest) =
        if (dropTrail p rest).isEmpty && p c then [] else c :: dropTrail p rest := rfl
    rw [e]
    by_cases h : (dropTrail p rest).isEmpty && p c
    · rw [if_pos h]
      rfl
    · rw [if_neg h]
      have e2 : dropTrail p (c :: dropTrail p rest) =
          if (dropTrail p (dropTrail p rest)).isEmpty && p c then []
          else c :: dropTrail p (dropTrail p rest) := rfl
      rw [e2, ih]
      rw [if_neg h]

theorem pyStrip_idem (l : List Char) : pyStrip (pyStrip l) = pyStrip l := by
  have hstep : (pyStrip l).dropWhile pyIsSpace = pyStrip l := by
    cases hz : pyStrip l with
    | nil => rfl
    | cons c t =>
      unfold pyStrip at hz
      obtain ⟨t2, ht2⟩ := dropTrail_isPref pyIsSpace (l.dropWhile pyIsSpace)
      have hu : l.dropWhile pyIsSpace = c :: (t ++ t2) := by
        rw [ht2, hz]
        rfl
      have hc : pyIsSpace c = false := dropWhile_head_not pyIsSpace l c _ hu
      rw [List.dropWhile_cons, if_neg (by simp [hc])]
  show dropTrail pyIsSpace ((pyStrip l).dropWhile pyIsSpace) = pyStrip l
  rw [hstep]
  unfold pyStrip
  exact dropTrail_idem pyIsSpace _

theorem removeNulls_id (l : List Char) (h : '\x00' ∉ l) : removeNulls l = l := by
  unfold removeNulls
  refine List.filter_eq_self.mpr ?_
  intro a ha
  simp only [Bool.not_eq_true']
  by_contra hne
  have : a = '\x00' := by simpa using hne
  exact h (this ▸ ha)

theorem removeNulls_not_mem (l : List Char) : '\x00' ∉ removeNulls l := by
  intro h
  have := (List.mem_filter.mp h).2
  simp at this

/-- C3 (amended): cleaning is idempotent on every input containing no
decimal digit and no hyphen-minus: the page-header, line-number and
hyphen-rejoin passes are then the identity, and the whitespace-normalising
passes are idempotent. -/
theorem clean_idempotent_of_no_digit_hyphen (s : String)
    (hd : ∀ c ∈ s.toList, c.isDigit = false) (hh : '-' ∉ s.toList) :
    clean_legislative_text (clean_legislative_text s) = clean_legislative_text s := by
  unfold clean_legislative_text
  have hd1 : ∀ c ∈ removeNulls s.toList, c.isDigit = false :=
    fun c hc => hd c (removeNulls_subset s.toList hc)
  have hh1 : '-' ∉ removeNulls s.toList :=
    fun hc => hh (removeNulls_subset s.toList hc)
  rw [(hyphenFix_no_hyphen _ hh1).1]
  rw [subLineGo_id _ (fun l' h' => pageHeaderMatchLen_none l' h') _ true hd1]
  rw [subLineGo_id _ (fun l' h' => lineNumMatchLen_none l' h') _ true hd1]
  set y := pyStrip (collapseNewlines (collapseSpaces (removeNulls s.toList))) with hy
  have hty : (String.mk y).toList = y := rfl
  rw [hty]
  have hsub : y ⊆ removeNulls s.toList := by
    rw [hy]
    exact (pyStrip_subset _).trans ((collapseNewlines_subset _).trans (collapseSpaces_subset _))
  have hdy : ∀ c ∈ y, c.isDigit = false := fun c hc => hd1 c (hsub hc)
  have hhy : '-' ∉ y := fun hc => hh1 (hsub hc)
  have hny : '\x00' ∉ y := fun hc => removeNulls_not_mem s.toList (hsub hc)
  rw [removeNulls_id y hny]
  rw [(hyphenFix_no_hyphen y hhy).1]
  rw [subLineGo_id _ (fun l' h' => pageHeaderMatchLen_none l' h') y true hdy]
  rw [subLineGo_id _ (fun l' h' => lineNumMatchLen_none l' h') y true hdy]
  have hDD : noDD y = true := by
    rw [hy]
    exact noDD_pyStrip _ (collapseNewlines_noDD _ (collapseSpaces_noDD _))
  have hTT : noTTT y = true := by
    rw [hy]
    exact noTTT_pyStrip _ (collapseNewlines_noTTT _)
  rw [noDD_collapseSpaces_id y hDD, noTTT_collapseNewlines_id y hTT]
  rw [hy, pyStrip_idem]

theorem clean_idempotent_witness :
    clean_legislative_text (clean_legislative_text "ab \n\n\n\n cd ef") =
      clean_legislative_text "ab \n\n\n\n cd ef" :=
  clean_idempotent_of_no_digit_hyphen "ab \n\n\n\n cd ef" (by decide) (by decide)

/-! ## Embeddings pipeline (src/ingestion/embeddings/embeddings_pipeline.py)

External effects (PDF text extraction, the embedding call inside the vector
store write) are modelled as `Except`-valued inputs: `process_document`'s two
`try/except` blocks become matches on those values, so the function is total —
the model of "no exception escapes to the caller". -/

/-- An (id, name) pair, as built for sponsors and committees by
`get_bill_metadata_for_embeddings`. -/
structure NamedRef where
  id : String
  name : String
deriving DecidableEq

/-- The bill metadata dictionary returned by `get_bill_metadata_for_embeddings`:
`session_year`/`session_code` are `None` when the session join is missing,
`primary_sponsor` is `None` when no primary sponsor resolves, and the two lists
may be empty. -/
structure BillMeta where
  bill_id : String
  bill_number : String
  session_year : Option Int
  session_code : Option String
  primary_sponsor : Option NamedRef
  cosponsors : List NamedRef
  committees : List NamedRef
deriving DecidableEq

/-- A JSON-like metadata value stored in a chunk's metadata dictionary. -/
inductive MetaVal where
  | str : String → MetaVal
  | num : Nat → MetaVal
  | intv : Int → MetaVal
  | null : MetaVal
  | strList : List String → MetaVal
deriving DecidableEq

/-- The metadata dictionary built per chunk by `process_document`
(lines 139–164): nine base entries always present (`document_id`,
`session_year`, `session_code` carry `null` when the value is absent), then
the sponsor / co-sponsor / committee entries added only when the upstream
value is truthy (non-`None`, non-empty). -/
def buildChunkMetadata (bill_id : String) (document_id : Option String)
    (content_type : String) (i : Nat) (doc_type : String) (token_count : Nat)
    (bm : BillMeta) : List (String × MetaVal) :=
  [("bill_id", MetaVal.str bill_id),
   ("bill_number", MetaVal.str bm.bill_number),
   ("document_id", match document_id with
     | some d => MetaVal.str d
     | none => MetaVal.null),
   ("content_type", MetaVal.str content_type),
   ("chunk_index", MetaVal.num i),
   ("doc_type", MetaVal.str doc_type),
   ("token_count", MetaVal.num token_count),
   ("session_year", match bm.session_year with
     | some y => MetaVal.intv y
     | none => MetaVal.null),
   ("session_code", match bm.session_code with
     | some c => MetaVal.str c
     | none => MetaVal.null)]
  ++ (match bm.primary_sponsor with
    | some sp => [("primary_sponsor_id", MetaVal.str sp.id),
                  ("primary_sponsor_name", MetaVal.str sp.name)]
    | none => [])
  ++ (if bm.cosponsors.isEmpty then []
      else [("cosponsor_ids", MetaVal.strList (bm.cosponsors.map NamedRef.id)),
            ("cosponsor_names", MetaVal.strList (bm.cosponsors.map NamedRef.name))])
  ++ (if bm.committees.isEmpty then []
      else [("committee_ids", MetaVal.strList (bm.committees.map NamedRef.id)),
            ("committee_names", MetaVal.strList (bm.committees.map NamedRef.name))])

/-- A LangChain `Document` as assembled by `process_document`. -/
structure LCDocument where
  page_content : String
  metadata : List (String × MetaVal)
deriving DecidableEq

/-- The two external calls a single document's processing performs: text
extraction from storage, and the vector-store write (which embeds inside). -/
structure ExtEnv where
  extract : Except String String
  store : Except String Unit

/-- The enriched documents of one processed document's chunks. -/
def buildDocuments (tok : String → Nat) (bill_id : String) (document_id : Option String)
    (content_type doc_type : String) (bm : BillMeta) (chunks : List String) :
    List LCDocument :=
  chunks.mapIdx (fun i chunk =>
    ⟨chunk, buildChunkMetadata bill_id document_id content_type i doc_type (tok chunk) bm⟩)

/-- `EmbeddingsPipeline.process_document` (lines 92–179): extraction failure
is caught and yields 0; otherwise the text is cleaned and chunked, the
enriched documents built, and the store write attempted — its failure is
caught and yields 0, else the number of documents is returned. -/
def process_document (tok : String → Nat) (target overlap : Nat) (env : ExtEnv)
    (bill_id : String) (document_id : Option String) (content_type : String)
    (bm : BillMeta) : Nat :=
  match env.extract with
  | .error _ => 0
  | .ok raw_text =>
    let clean_text := clean_legislative_text raw_text
    let cd := chunk_document tok target overlap clean_text
    let documents := buildDocuments tok bill_id document_id content_type cd.2 bm cd.1
    match env.store with
    | .error _ => 0
    | .ok _ => documents.length

/-- `EmbeddingsPipeline.process_bill` (lines 181–223): fetch metadata (0 when
missing), select the embeddable documents, and accumulate each document's
embedding count, skipping documents without a storage path. -/
def process_bill (tok : String → Nat) (target overlap : Nat)
    (envOf : DocRecord → ExtEnv) (bmQ : Option BillMeta) (docs : List DocRecord)
    (bill_id : String) : Nat :=
  match bmQ with
  | none => 0
  | some bm =>
    let selected := get_embeddable_bill_documents docs
    if selected.isEmpty then 0
    else
      selected.foldl (fun acc d =>
        match d.storage_path with
        | none => acc
        | some p =>
          if p = "" then acc
          else acc + process_document tok target overlap (envOf d) bill_id
            (some d.id) d.document_type bm) 0

theorem process_bill_foldl (tok : String → Nat) (target overlap : Nat)
    (envOf : DocRecord → ExtEnv) (bm : BillMeta) (bill_id : String) :
    ∀ (l : List DocRecord) (a : Nat),
    l.foldl (fun acc d =>
      match d.storage_path with
      | none => acc
      | some p =>
        if p = "" then acc
        else acc + process_document tok target overlap (envOf d) bill_id
          (some d.id) d.document_type bm) a =
    a + (l.map (fun d =>
      match d.storage_path with
      | none => 0
      | some p =>
        if p = "" then 0
        else process_document tok target overlap (envOf d) bill_id
          (some d.id) d.document_type bm)).sum := by
  intro l
  induction l with
  | nil => intro a; simp
  | cons d l ih =>
    intro a
    rw [List.foldl_cons, List.map_cons, List.sum_cons, ih]
    rcases hsp : d.storage_path with _ | p
    · simp
    · by_cases hp : p = ""
      · simp [hp]
      · simp [hp]
        omega

/-- C8: if text extraction or the vector-store write fails for a document,
`process_document` returns 0 embeddings for it (the failure is consumed by
the model's `Except` matches, which mirror the two try/except blocks — no
exception escapes), and `process_bill`'s total is the sum of independent
per-document results, so the bill's remaining selected documents are still
processed. -/
theorem process_failure_isolated
    (tok : String → Nat) (target overlap : Nat) (env : ExtEnv) (bill_id : String)
    (document_id : Option String) (content_type : String) (bm : BillMeta)
    (envOf : DocRecord → ExtEnv) (docs : List DocRecord)
    (h : (∃ e, env.extract = .error e) ∨ (∃ e, env.store = .error e)) :
    process_document tok target overlap env bill_id document_id content_type bm = 0 ∧
    process_bill tok target overlap envOf (some bm) docs bill_id =
      ((get_embeddable_bill_documents docs).map (fun d =>
        match d.storage_path with
        | none => 0
        | some p =>
          if p = "" then 0
          else process_document tok target overlap (envOf d) bill_id
            (some d.id) d.document_type bm)).sum := by
  constructor
  · unfold process_document
    rcases h with ⟨e, he⟩ | ⟨e, he⟩
    · rw [he]
    · rw [he]
      cases env.extract with
      | error _ => rfl
      | ok raw => rfl
  · simp only [process_bill]
    by_cases hsel : (get_embeddable_bill_documents docs).isEmpty
    · rw [if_pos hsel]
      have hnil : get_embeddable_bill_documents docs = [] := by simpa using hsel
      rw [hnil]
      rfl
    · rw [if_neg hsel]
      rw [process_bill_foldl]
      simp

theorem process_failure_isolated_witness :
    process_document String.length 800 100 ⟨Except.error "boom", Except.ok ()⟩ "b"
      (some "d") "Introduced" ⟨"b", "HB 1", none, none, none, [], []⟩ = 0 ∧
    process_bill String.length 800 100 (fun _ => ⟨Except.ok "hi.", Except.ok ()⟩)
      (some ⟨"b", "HB 1", none, none, none, [], []⟩)
      [⟨"d1", some "p.pdf", "Introduced"⟩] "b" =
      (([⟨"d1", some "p.pdf", "Introduced"⟩] : List DocRecord).map (fun d =>
        match d.storage_path with
        | none => 0
        | some p =>
          if p = "" then 0
          else process_document String.length 800 100
            ((fun _ => (⟨Except.ok "hi.", Except.ok ()⟩ : ExtEnv)) d) "b"
            (some d.id) d.document_type ⟨"b", "HB 1", none, none, none, [], []⟩)).sum := by
  have h := process_failure_isolated String.length 800 100
    ⟨Except.error "boom", Except.ok ()⟩ "b" (some "d") "Introduced"
    ⟨"b", "HB 1", none, none, none, [], []⟩
    (fun _ => ⟨Except.ok "hi.", Except.ok ()⟩)
    [⟨"d1", some "p.pdf", "Introduced"⟩]
    (Or.inl ⟨"boom", rfl⟩)
  refine ⟨h.1, ?_⟩
  rw [h.2]
  have : get_embeddable_bill_documents [⟨"d1", some "p.pdf", "Introduced"⟩] =
      [⟨"d1", some "p.pdf", "Introduced"⟩] := by decide
  rw [this]

/-- The key set of a chunk's metadata dictionary. -/
def chunkMetadataKeys (bill_id : String) (document_id : Option String) (content_type : String)
    (i : Nat) (doc_type : String) (token_count : Nat) (bm : BillMeta) : List String :=
  (buildChunkMetadata bill_id document_id content_type i doc_type token_count bm).map Prod.fst

/-- C9 counterexample: a metadata field absent upstream is not always
omitted — when the bill metadata has no session year, the chunk metadata
still contains the "session_year" key (with a null value). -/
theorem metadata_absent_field_not_omitted :
    "session_year" ∈ chunkMetadataKeys "b" (some "d") "Introduced" 0 "summary" 3
        ⟨"b", "HB 1", none, none, none, [], []⟩ ∧
    (⟨"b", "HB 1", none, none, none, [], []⟩ : BillMeta).session_year = none := by
  exact ⟨by decide, rfl⟩

/-- C9 (amended): the sponsor, co-sponsor and committee key groups are in the
chunk metadata iff the upstream value is present and non-empty (no
placeholders); the base keys `session_year`, `session_code` and `document_id`
are always present, even when the upstream value is absent. -/
theorem buildChunkMetadata_optional_fields (bill_id : String) (document_id : Option String)
    (content_type : String) (i : Nat) (doc_type : String) (token_count : Nat) (bm : BillMeta) :
    (("primary_sponsor_id" ∈ chunkMetadataKeys bill_id document_id content_type i doc_type token_count bm) ↔ bm.primary_sponsor ≠ none) ∧
    (("primary_sponsor_name" ∈ chunkMetadataKeys bill_id document_id content_type i doc_type token_count bm) ↔ bm.primary_sponsor ≠ none) ∧
    (("cosponsor_ids" ∈ chunkMetadataKeys bill_id document_id content_type i doc_type token_count bm) ↔ bm.cosponsors ≠ []) ∧
    (("cosponsor_names" ∈ chunkMetadataKeys bill_id document_id content_type i doc_type token_count bm) ↔ bm.cosponsors ≠ []) ∧
    (("committee_ids" ∈ chunkMetadataKeys bill_id document_id content_type i doc_type token_count bm) ↔ bm.committees ≠ []) ∧
    (("committee_names" ∈ chunkMetadataKeys bill_id document_id content_type i doc_type token_count bm) ↔ bm.committees ≠ []) ∧
    ("session_year" ∈ chunkMetadataKeys bill_id document_id content_type i doc_type token_count bm) ∧
    ("session_code" ∈ chunkMetadataKeys bill_id document_id content_type i doc_type token_count bm) ∧
    ("document_id" ∈ chunkMetadataKeys bill_id document_id content_type i doc_type token_count bm) := by
  rcases bm with ⟨bid, bnum, sy, sc, sp, cos, com⟩
  rcases sp with _ | sp <;> rcases cos with _ | ⟨c1, cos'⟩ <;> rcases com with _ | ⟨k1, com'⟩ <;>
      rcases sy with _ | sy <;> rcases sc with _ | sc <;> rcases document_id with _ | did <;>
    simp [chunkMetadataKeys, buildChunkMetadata]
